import Mathlib

/-!
Verification development for the deployer CLI (release lifecycle, secrets
vault, credential resolution, database provisioning, env-file codec).

Each section shallowly embeds one component of the JavaScript source:
pure computations become Lean functions, stateful workflows become explicit
state-passing functions over small state records, fallible steps return
`Except` or `Option`, and external collaborators (AES-GCM, PBKDF2, the
database engine, the health probe) are modelled by explicit parameters or
by small semantic state machines, with their library contracts stated as
hypotheses of the theorems.
-/

/-! ## Secrets vault (src/src/services/secrets.js)

Byte strings are modelled as `List Nat`.  The base64 transport applied to
the final blob (`Buffer.concat([...]).toString('base64')` on encrypt,
`Buffer.from(encryptedData, 'base64')` on decrypt) is a bijection between
byte strings and their encodings and is elided: blobs are kept as bytes.
-/

namespace Secrets

/-- Constant `KEY_LENGTH` from secrets.js line 6. -/
def KEY_LENGTH : Nat := 32

/-- Constant `IV_LENGTH` from secrets.js line 7 (the code uses 16 bytes). -/
def IV_LENGTH : Nat := 16

/-- Constant `AUTH_TAG_LENGTH` from secrets.js line 8. -/
def AUTH_TAG_LENGTH : Nat := 16

/-- Constant `SALT_LENGTH` from secrets.js line 9. -/
def SALT_LENGTH : Nat := 64

/-- Collaborator contract of the node crypto primitives used by
`SecretsManager`: `pbkdf2` models `crypto.pbkdf2Sync` (`deriveKey`),
`gcmEnc` the AES-256-GCM cipher returning ciphertext and auth tag,
`gcmDec` the decipher with tag verification (`none` on tag mismatch). -/
structure CryptoPrim where
  pbkdf2 : List Nat → List Nat → List Nat
  gcmEnc : List Nat → List Nat → List Nat → List Nat × List Nat
  gcmDec : List Nat → List Nat → List Nat → List Nat → Option (List Nat)

/-- Collaborator contract of `JSON.stringify`/`JSON.parse` used to
serialize the structured value before encryption. -/
structure JsonCodec (α : Type) where
  stringify : α → List Nat
  parse : List Nat → Option α

/-- `SecretsManager.encrypt` (secrets.js lines 41-62).  The two
`crypto.randomBytes` samples drawn inside the function (the salt of
`SALT_LENGTH` bytes and the iv of `IV_LENGTH` bytes) are passed explicitly;
`masterKey` is the key-file content returned by `ensureKey`.  The blob is
`Buffer.concat([salt, iv, authTag, encrypted])`. -/
def encryptVal (P : CryptoPrim) (J : JsonCodec α) (masterKey salt iv : List Nat)
    (x : α) : List Nat :=
  let key := P.pbkdf2 masterKey salt
  let e := P.gcmEnc key iv (J.stringify x)
  salt ++ iv ++ e.2 ++ e.1

/-- `SecretsManager.decrypt` (secrets.js lines 64-83): parse the blob at
the fixed offsets `subarray(0,64)`, `subarray(64,80)`, `subarray(80,96)`,
`subarray(96)`, re-derive the key and decipher. -/
def decryptVal (P : CryptoPrim) (J : JsonCodec α) (masterKey blob : List Nat) :
    Option α :=
  let salt := blob.take SALT_LENGTH
  let iv := (blob.drop SALT_LENGTH).take IV_LENGTH
  let tag := (blob.drop (SALT_LENGTH + IV_LENGTH)).take AUTH_TAG_LENGTH
  let ct := blob.drop (SALT_LENGTH + IV_LENGTH + AUTH_TAG_LENGTH)
  let key := P.pbkdf2 masterKey salt
  (P.gcmDec key iv tag ct).bind J.parse

/-- Concrete instantiation of the crypto contract used by witnesses:
the key is master key joined with salt, encryption is the identity with a
constant all-zero tag, decryption checks the tag. -/
def demoPrim : CryptoPrim where
  pbkdf2 := fun mk salt => mk ++ salt
  gcmEnc := fun _ _ pt => (pt, List.replicate 16 0)
  gcmDec := fun _ _ tag ct => if tag = List.replicate 16 0 then some ct else none

/-- Concrete identity codec on byte lists used by witnesses. -/
def demoCodec : JsonCodec (List Nat) where
  stringify := id
  parse := some

theorem take_len_append (xs ys : List Nat) : (xs ++ ys).take xs.length = xs := by
  simp

theorem drop_len_append (xs ys : List Nat) : (xs ++ ys).drop xs.length = ys := by
  simp

/-- Parsing a blob assembled as `salt ++ iv ++ tag ++ ct` at the fixed
offsets used by `decryptVal` recovers the four components, provided the
components have the lengths the code's constants prescribe. -/
theorem blob_parse (salt iv tag ct : List Nat)
    (hs : salt.length = SALT_LENGTH) (hiv : iv.length = IV_LENGTH)
    (ht : tag.length = AUTH_TAG_LENGTH) :
    (salt ++ iv ++ tag ++ ct).take SALT_LENGTH = salt ∧
    ((salt ++ iv ++ tag ++ ct).drop SALT_LENGTH).take IV_LENGTH = iv ∧
    ((salt ++ iv ++ tag ++ ct).drop (SALT_LENGTH + IV_LENGTH)).take
      AUTH_TAG_LENGTH = tag ∧
    (salt ++ iv ++ tag ++ ct).drop (SALT_LENGTH + IV_LENGTH + AUTH_TAG_LENGTH)
      = ct := by
  have hb : salt ++ iv ++ tag ++ ct = salt ++ (iv ++ (tag ++ ct)) := by
    simp [List.append_assoc]
  have hdrop1 : (salt ++ iv ++ tag ++ ct).drop SALT_LENGTH = iv ++ (tag ++ ct) := by
    rw [hb, ← hs, drop_len_append]
  have hdrop2 : (salt ++ iv ++ tag ++ ct).drop (SALT_LENGTH + IV_LENGTH)
      = tag ++ ct := by
    rw [← List.drop_drop, hdrop1, ← hiv, drop_len_append]
  refine ⟨?_, ?_, ?_, ?_⟩
  · rw [hb, ← hs, take_len_append]
  · rw [hdrop1, ← hiv, take_len_append]
  · rw [hdrop2, ← ht, take_len_append]
  · rw [← List.drop_drop, hdrop2, ← ht, drop_len_append]

end Secrets

/-- C5: decrypt∘encrypt is the identity under an unchanged master key:
for every value `x` that the JSON codec round-trips, and any AES-GCM
cipher satisfying its contract (the tag has the fixed GCM length and
deciphering the ciphertext with the matching key, iv and tag recovers the
plaintext), `decryptVal` applied to `encryptVal`'s blob returns `some x`.
The salt and iv are the `randomBytes` samples of the code's lengths. -/
theorem c5_decrypt_encrypt {α : Type} (P : Secrets.CryptoPrim)
    (J : Secrets.JsonCodec α) (masterKey salt iv : List Nat) (x : α)
    (hs : salt.length = Secrets.SALT_LENGTH)
    (hiv : iv.length = Secrets.IV_LENGTH)
    (htag : ∀ k i p, ((P.gcmEnc k i p).2).length = Secrets.AUTH_TAG_LENGTH)
    (hdec : ∀ k i p, P.gcmDec k i (P.gcmEnc k i p).2 (P.gcmEnc k i p).1 = some p)
    (hjson : J.parse (J.stringify x) = some x) :
    Secrets.decryptVal P J masterKey (Secrets.encryptVal P J masterKey salt iv x)
      = some x := by
  have h := Secrets.blob_parse salt iv
    (P.gcmEnc (P.pbkdf2 masterKey salt) iv (J.stringify x)).2
    (P.gcmEnc (P.pbkdf2 masterKey salt) iv (J.stringify x)).1
    hs hiv (htag _ _ _)
  obtain ⟨h1, h2, h3, h4⟩ := h
  simp only [Secrets.decryptVal, Secrets.encryptVal, h1, h2, h3, h4]
  rw [hdec]
  simpa using hjson

/-- Witness for C5 at a concrete cipher, codec and input. -/
theorem c5_decrypt_encrypt_witness :
    Secrets.decryptVal Secrets.demoPrim Secrets.demoCodec []
      (Secrets.encryptVal Secrets.demoPrim Secrets.demoCodec []
        (List.replicate 64 0) (List.replicate 16 1) [5, 6]) = some [5, 6] :=
  c5_decrypt_encrypt Secrets.demoPrim Secrets.demoCodec [] _ _ [5, 6]
    (by decide) (by decide)
    (fun k i p => by simp [Secrets.demoPrim, Secrets.AUTH_TAG_LENGTH])
    (fun k i p => by simp [Secrets.demoPrim])
    rfl

/-- C6 counterexample: the iv that `encrypt` generates has `IV_LENGTH = 16`
bytes, not 12, so on a concrete blob the 12-byte slice that the claimed
layout would call the iv differs from the iv actually embedded. -/
theorem c6_layout_counterexample :
    (List.replicate Secrets.IV_LENGTH 7).length ≠ 12 ∧
    ((Secrets.encryptVal Secrets.demoPrim Secrets.demoCodec []
        (List.replicate 64 0) (List.replicate Secrets.IV_LENGTH 7)
        [1, 2, 3]).drop Secrets.SALT_LENGTH).take 12
      ≠ List.replicate Secrets.IV_LENGTH 7 := by
  constructor
  · decide
  · decide

/-- C6 amended: the blob is `salt(64) ‖ iv(16) ‖ tag(16) ‖ ciphertext` —
the iv field is 16 bytes, not the 12 the spec claims — and `decrypt`
parses exactly this fixed-width layout, recovering each component. -/
theorem c6_blob_layout {α : Type} (P : Secrets.CryptoPrim)
    (J : Secrets.JsonCodec α) (masterKey salt iv : List Nat) (x : α)
    (hs : salt.length = 64) (hiv : iv.length = 16)
    (htag : ((P.gcmEnc (P.pbkdf2 masterKey salt) iv (J.stringify x)).2).length = 16) :
    Secrets.encryptVal P J masterKey salt iv x
      = salt ++ iv ++ (P.gcmEnc (P.pbkdf2 masterKey salt) iv (J.stringify x)).2
          ++ (P.gcmEnc (P.pbkdf2 masterKey salt) iv (J.stringify x)).1 ∧
    (Secrets.encryptVal P J masterKey salt iv x).take 64 = salt ∧
    ((Secrets.encryptVal P J masterKey salt iv x).drop 64).take 16 = iv ∧
    ((Secrets.encryptVal P J masterKey salt iv x).drop 80).take 16
      = (P.gcmEnc (P.pbkdf2 masterKey salt) iv (J.stringify x)).2 ∧
    (Secrets.encryptVal P J masterKey salt iv x).drop 96
      = (P.gcmEnc (P.pbkdf2 masterKey salt) iv (J.stringify x)).1 := by
  have h := Secrets.blob_parse salt iv
    (P.gcmEnc (P.pbkdf2 masterKey salt) iv (J.stringify x)).2
    (P.gcmEnc (P.pbkdf2 masterKey salt) iv (J.stringify x)).1
    (by simpa [Secrets.SALT_LENGTH] using hs)
    (by simpa [Secrets.IV_LENGTH] using hiv)
    (by simpa [Secrets.AUTH_TAG_LENGTH] using htag)
  obtain ⟨h1, h2, h3, h4⟩ := h
  refine ⟨rfl, ?_, ?_, ?_, ?_⟩
  · simpa [Secrets.encryptVal, Secrets.SALT_LENGTH] using h1
  · simpa [Secrets.encryptVal, Secrets.SALT_LENGTH, Secrets.IV_LENGTH] using h2
  · simpa [Secrets.encryptVal, Secrets.SALT_LENGTH, Secrets.IV_LENGTH,
      Secrets.AUTH_TAG_LENGTH] using h3
  · simpa [Secrets.encryptVal, Secrets.SALT_LENGTH, Secrets.IV_LENGTH,
      Secrets.AUTH_TAG_LENGTH] using h4

/-- Witness for the amended C6 layout at a concrete cipher and input. -/
theorem c6_blob_layout_witness :
    ((Secrets.encryptVal Secrets.demoPrim Secrets.demoCodec []
        (List.replicate 64 0) (List.replicate 16 7) [1, 2, 3]).drop 64).take 16
      = List.replicate 16 7 :=
  (c6_blob_layout Secrets.demoPrim Secrets.demoCodec [] _ _ [1, 2, 3]
    (by decide) (by decide) (by decide)).2.2.1


/-! ## Key rotation (src/src/services/secrets.js lines 139-158)

`rotateKey` is modelled as a state machine over the vault's persisted
state.  Ciphertexts are symbolic: a stored file records which master key
encrypted it, and `retrieve` (decrypt) succeeds exactly when that key is
the key currently in the key file — a wrong key is an auth-tag mismatch,
i.e. a `CryptoFailure`, modelled as `none`.  Failure of a re-encrypting
`store` (e.g. an I/O error) is injected by a predicate on secret names;
`Except.error` carries the on-disk state at the moment of failure. -/

namespace Rotate

/-- A stored encrypted secret file: the master key that produced the
ciphertext and the enclosed plaintext. -/
structure EncSecret where
  encKey : String
  value : String
deriving DecidableEq

/-- Vault state: content of the `.master-key` file and the name-addressed
encrypted files in the secrets directory. -/
structure VaultState where
  masterKey : String
  files : List (String × EncSecret)
deriving DecidableEq

/-- Name lookup among the stored files. -/
def findFile (files : List (String × EncSecret)) (name : String) :
    Option EncSecret :=
  match files with
  | [] => none
  | (n, e) :: rest => if n = name then some e else findFile rest name

/-- `SecretsManager.retrieve`/`decrypt`: returns the plaintext only when
the file was encrypted under the currently active master key. -/
def retrieve (s : VaultState) (name : String) : Option String :=
  (findFile s.files name).bind fun e =>
    if e.encKey = s.masterKey then some e.value else none

/-- `SecretsManager.store`: encrypt under the currently active master key
and write the file (replacing an existing one of the same name). -/
def storeFile (files : List (String × EncSecret)) (name : String)
    (e : EncSecret) : List (String × EncSecret) :=
  match files with
  | [] => [(name, e)]
  | (n, e0) :: rest =>
    if n = name then (n, e) :: rest else (n, e0) :: storeFile rest name e

/-- `store` on the vault state. -/
def store (s : VaultState) (name value : String) : VaultState :=
  { s with files := storeFile s.files name ⟨s.masterKey, value⟩ }

/-- The re-encryption loop of `rotateKey` (lines 153-155): re-store each
decrypted secret under the now-active new key; a failing `store` aborts
with the state at the failure point. -/
def restoreLoop (failStore : String → Bool) :
    List (String × String) → VaultState → Except VaultState VaultState
  | [], s => .ok s
  | (name, value) :: rest, s =>
    if failStore name then .error s
    else restoreLoop failStore rest (store s name value)

/-- `SecretsManager.rotateKey` (lines 139-158): read every stored secret
under the current key (lines 141-146; a failing decrypt aborts before
anything is written), then overwrite the key file with the new key
(lines 149-150), then re-encrypt all secrets under the new key
(lines 153-155).  `newKey` is the `crypto.randomBytes` sample. -/
def rotateKey (failStore : String → Bool) (newKey : String) (s : VaultState) :
    Except VaultState VaultState :=
  let names := s.files.map Prod.fst
  if names.all fun n => (retrieve s n).isSome then
    let secrets := names.filterMap fun n => (retrieve s n).map fun v => (n, v)
    restoreLoop failStore secrets { s with masterKey := newKey }
  else
    .error s

end Rotate

/-- C4: the code is not all-or-nothing.  Concrete failing input: a vault
holding one secret `a` encrypted under master key `k0`, where re-storing
`a` under the new key `k1` fails.  `rotateKey` has already overwritten the
key file with `k1` before the failing `store`, so at the point of failure
the old key is discarded and the still-old ciphertext of `a` no longer
decrypts — contradicting the claim that every stored secret remains
decryptable. -/
theorem c4_rotateKey_discards_old_key :
    Rotate.rotateKey (fun n => n = "a") "k1"
        ⟨"k0", [("a", ⟨"k0", "v"⟩)]⟩
      = .error ⟨"k1", [("a", ⟨"k0", "v"⟩)]⟩ ∧
    ("k1" : String) ≠ "k0" ∧
    Rotate.retrieve ⟨"k1", [("a", ⟨"k0", "v"⟩)]⟩ "a" = none := by
  refine ⟨?_, by decide, ?_⟩
  · rfl
  · rfl

/-! ## Lexicographic order on version-id strings

JavaScript compares strings code-unit by code-unit; `Array.sort()` with no
comparator sorts lexicographically in this order.  Lean's built-in `String`
order is not kernel-computable, so the comparison is embedded explicitly
on the character lists underlying the strings. -/

/-- Lexicographic strict order on character lists (JS string `<`). -/
def listLtb : List Char → List Char → Bool
  | [], [] => false
  | [], _ :: _ => true
  | _ :: _, [] => false
  | a :: as, b :: bs => if a < b then true else if b < a then false else listLtb as bs

/-- Lexicographic strict order on strings, as JS compares them. -/
def strLtb (a b : String) : Bool := listLtb a.data b.data

theorem listLtb_irrefl : ∀ l : List Char, listLtb l l = false := by
  intro l
  induction l with
  | nil => rfl
  | cons a as ih => simp [listLtb, lt_irrefl, ih]

theorem listLtb_cons_same (c : Char) (a b : List Char) :
    listLtb (c :: a) (c :: b) = listLtb a b := by
  simp [listLtb, lt_irrefl]

theorem listLtb_asymm : ∀ a b : List Char,
    listLtb a b = true → listLtb b a = false := by
  intro a
  induction a with
  | nil =>
    intro b h
    cases b with
    | nil => cases h
    | cons y ys => rfl
  | cons x xs ih =>
    intro b h
    cases b with
    | nil => cases h
    | cons y ys =>
      by_cases h1 : x < y
      · have h2 : ¬ y < x := lt_asymm h1
        simp [listLtb, h1, h2]
      · by_cases h2 : y < x
        · simp [listLtb, h1, h2] at h
        · simp only [listLtb, if_neg h1, if_neg h2] at h
          simp only [listLtb, if_neg h2, if_neg h1]
          exact ih ys h

theorem listLtb_trans : ∀ a b c : List Char,
    listLtb a b = true → listLtb b c = true → listLtb a c = true := by
  intro a
  induction a with
  | nil =>
    intro b c hab hbc
    cases b with
    | nil => cases hab
    | cons y ys =>
      cases c with
      | nil => cases hbc
      | cons z zs => rfl
  | cons x xs ih =>
    intro b c hab hbc
    cases b with
    | nil => cases hab
    | cons y ys =>
      cases c with
      | nil => cases hbc
      | cons z zs =>
        by_cases hxy : x < y
        · by_cases hyz : y < z
          · simp [listLtb, lt_trans hxy hyz]
          · by_cases hzy : z < y
            · simp [listLtb, hyz, hzy] at hbc
            · have : y = z := le_antisymm (le_of_not_lt hzy) (le_of_not_lt hyz)
              subst this
              simp [listLtb, hxy]
        · by_cases hyx : y < x
          · simp [listLtb, hxy, hyx] at hab
          · have hxyeq : x = y := le_antisymm (le_of_not_lt hyx) (le_of_not_lt hxy)
            subst hxyeq
            simp only [listLtb, if_neg (lt_irrefl x)] at hab
            by_cases hxz : x < z
            · simp [listLtb, hxz]
            · by_cases hzx : z < x
              · simp [listLtb, hxz, hzx] at hbc
              · simp only [listLtb, if_neg hxz, if_neg hzx] at hbc ⊢
                exact ih ys zs hab hbc

theorem listLtb_conn : ∀ a b : List Char,
    listLtb a b = false → listLtb b a = false → a = b := by
  intro a
  induction a with
  | nil =>
    intro b hab _
    cases b with
    | nil => rfl
    | cons y ys => cases hab
  | cons x xs ih =>
    intro b hab hba
    cases b with
    | nil => cases hba
    | cons y ys =>
      by_cases hxy : x < y
      · simp [listLtb, hxy] at hab
      · by_cases hyx : y < x
        · simp [listLtb, hyx] at hba
        · have hxyeq : x = y := le_antisymm (le_of_not_lt hyx) (le_of_not_lt hxy)
          subst hxyeq
          simp only [listLtb, if_neg hxy, if_neg (lt_irrefl x)] at hab hba
          rw [ih ys hab hba]

theorem strLtb_irrefl (a : String) : strLtb a a = false :=
  listLtb_irrefl a.data

theorem strLtb_asymm {a b : String} (h : strLtb a b = true) :
    strLtb b a = false :=
  listLtb_asymm a.data b.data h

theorem strLtb_trans {a b c : String} (hab : strLtb a b = true)
    (hbc : strLtb b c = true) : strLtb a c = true :=
  listLtb_trans a.data b.data c.data hab hbc

theorem strLtb_conn {a b : String} (hab : strLtb a b = false)
    (hba : strLtb b a = false) : a = b := by
  cases a with
  | mk da =>
    cases b with
    | mk db =>
      have := listLtb_conn da db hab hba
      simp [this]

/-! ## Release store (src/deployer.js — src/unnamed/part_004)

Release directories are identified by their version-id names.
`releases.sort().reverse()` — JS lexicographic sort followed by reversal —
is modelled by an insertion sort into descending `strLtb` order; on
duplicate-free listings (directory names are unique) the descending
ordering is unique, so the model agrees with the code. -/

namespace Releases

/-- Insert a version id into a descending-sorted list. -/
def insertDesc (x : String) : List String → List String
  | [] => [x]
  | y :: ys => if strLtb y x then x :: y :: ys else y :: insertDesc x ys

/-- `releases.sort().reverse()`: the release listing in descending
version-id order. -/
def sortedDesc : List String → List String
  | [] => []
  | x :: xs => insertDesc x (sortedDesc xs)

theorem mem_insertDesc {a x : String} {l : List String} :
    a ∈ insertDesc x l ↔ a = x ∨ a ∈ l := by
  induction l with
  | nil => simp [insertDesc]
  | cons y ys ih =>
    by_cases h : strLtb y x = true
    · simp [insertDesc, h]
    · simp only [insertDesc, if_neg h, List.mem_cons, ih]
      tauto

theorem mem_sortedDesc {a : String} {l : List String} :
    a ∈ sortedDesc l ↔ a ∈ l := by
  induction l with
  | nil => simp [sortedDesc]
  | cons x xs ih => simp [sortedDesc, mem_insertDesc, ih]

theorem length_insertDesc (x : String) (l : List String) :
    (insertDesc x l).length = l.length + 1 := by
  induction l with
  | nil => simp [insertDesc]
  | cons y ys ih =>
    by_cases h : strLtb y x = true
    · simp [insertDesc, h]
    · simp only [insertDesc, if_neg h, List.length_cons, ih]

theorem length_sortedDesc (l : List String) :
    (sortedDesc l).length = l.length := by
  induction l with
  | nil => rfl
  | cons x xs ih => simp [sortedDesc, length_insertDesc, ih]

/-- Descending sortedness: no later element is greater. -/
def DescSorted (l : List String) : Prop :=
  l.Pairwise fun a b => strLtb a b = false

theorem descSorted_insertDesc {x : String} {l : List String}
    (h : DescSorted l) : DescSorted (insertDesc x l) := by
  induction l with
  | nil =>
    refine List.Pairwise.cons ?_ List.Pairwise.nil
    intro b hb
    cases hb
  | cons y ys ih =>
    rcases h with _ | ⟨hy, hys⟩
    by_cases hlt : strLtb y x = true
    · simp only [insertDesc, if_pos hlt]
      refine List.Pairwise.cons ?_ (List.Pairwise.cons hy hys)
      intro b hb
      rcases List.mem_cons.mp hb with rfl | hb
      · exact strLtb_asymm hlt
      · by_cases hxb : strLtb x b = true
        · have hyb : strLtb y b = true := strLtb_trans hlt hxb
          rw [hy b hb] at hyb
          cases hyb
        · simpa using hxb
    · simp only [insertDesc, if_neg hlt]
      refine List.Pairwise.cons ?_ (ih hys)
      intro b hb
      rcases mem_insertDesc.mp hb with rfl | hb
      · simpa using hlt
      · exact hy b hb

theorem descSorted_sortedDesc (l : List String) : DescSorted (sortedDesc l) := by
  induction l with
  | nil => exact List.Pairwise.nil
  | cons x xs ih => exact descSorted_insertDesc ih

theorem nodup_sortedDesc {l : List String} (h : l.Nodup) :
    (sortedDesc l).Nodup := by
  induction l with
  | nil => exact List.nodup_nil
  | cons x xs ih =>
    rcases List.nodup_cons.mp h with ⟨hx, hxs⟩
    have hmem : x ∉ sortedDesc xs := fun hc => hx (mem_sortedDesc.mp hc)
    have ins : ∀ (l0 : List String), x ∉ l0 → l0.Nodup → (insertDesc x l0).Nodup := by
      intro l0
      induction l0 with
      | nil => intro _ _; simp [insertDesc]
      | cons y ys ih0 =>
        intro hni hnd
        rcases List.nodup_cons.mp hnd with ⟨hyys, hys⟩
        by_cases hlt : strLtb y x = true
        · simp only [insertDesc, if_pos hlt]
          exact List.nodup_cons.mpr ⟨hni, hnd⟩
        · simp only [insertDesc, if_neg hlt]
          refine List.nodup_cons.mpr
            ⟨?_, ih0 (fun hc => hni (List.mem_cons_of_mem _ hc)) hys⟩
          intro hc
          rcases mem_insertDesc.mp hc with rfl | hc
          · exact hni (List.mem_cons_self _ _)
          · exact hyys hc
    exact ins (sortedDesc xs) hmem (ih hxs)

/-- On a duplicate-free descending-sorted list, an element all of whose
strict majorants number fewer than `k` lies in the first `k` entries. -/
theorem mem_take_of_descSorted :
    ∀ (l : List String) (c : String) (k : Nat), DescSorted l → l.Nodup →
      c ∈ l → (l.filter fun r => strLtb c r).length < k → c ∈ l.take k := by
  intro l
  induction l with
  | nil => intro c k _ _ hc; cases hc
  | cons x xs ih =>
    intro c k hs hnd hc hcount
    rcases List.nodup_cons.mp hnd with ⟨hx, hxs⟩
    rcases hs with _ | ⟨hxall, hxs2⟩
    rcases List.mem_cons.mp hc with rfl | hc2
    · have hk : 0 < k := lt_of_le_of_lt (Nat.zero_le _) hcount
      obtain ⟨k1, rfl⟩ := Nat.exists_eq_succ_of_ne_zero (Nat.pos_iff_ne_zero.mp hk)
      simp [List.take_succ_cons]
    · have hne : c ≠ x := fun hEq => hx (hEq ▸ hc2)
      have hlt : strLtb c x = true := by
        by_contra hcx
        have hcx2 : strLtb c x = false := by
          cases hEq : strLtb c x
          · rfl
          · exact absurd hEq hcx
        exact hne (strLtb_conn hcx2 (hxall c hc2))
      have hfil : ((x :: xs).filter fun r => strLtb c r)
          = x :: (xs.filter fun r => strLtb c r) := by
        simp [List.filter_cons, hlt]
      rw [hfil] at hcount
      simp only [List.length_cons] at hcount
      have hk2 : 1 ≤ k := by omega
      obtain ⟨k1, rfl⟩ := Nat.exists_eq_add_of_le hk2
      have hmemtake : c ∈ xs.take k1 := by
        refine ih c k1 hxs2 hxs hc2 ?_
        omega
      rw [show 1 + k1 = k1 + 1 from by omega]
      simp only [List.take_succ_cons, List.mem_cons]
      right
      exact hmemtake

/-- `Deployer.cleanupReleases` (deployer.js lines 1088-1097): sort the
release listing descending and delete every entry from index
`maxReleases` on.  The function returns the listing that remains. -/
def cleanupReleases (maxReleases : Nat) (releases : List String) : List String :=
  (sortedDesc releases).take maxReleases

/-- The release ids deleted by `cleanupReleases`. -/
def deletedReleases (maxReleases : Nat) (releases : List String) : List String :=
  (sortedDesc releases).drop maxReleases

/-- Default of `getMaxReleases` (config.js line 95): `maxReleases || 5`. -/
def MAX_RELEASES_default : Nat := 5

end Releases

/-- C2 counterexample: with the default maximum of 5 and six releases on
disk, pruning deletes the oldest id `v1` even when `current` references
it — `cleanupReleases` never consults the `current` pointer. -/
theorem c2_cleanup_counterexample :
    Releases.deletedReleases Releases.MAX_RELEASES_default
        ["v1", "v2", "v3", "v4", "v5", "v6"] = ["v1"] ∧
    "v1" ∉ Releases.cleanupReleases Releases.MAX_RELEASES_default
        ["v1", "v2", "v3", "v4", "v5", "v6"] := by
  refine ⟨by decide, by decide⟩

/-- C2 amended: pruning keeps exactly the `maxReleases` greatest release
ids, so at most the configured maximum remain, and the release `current`
references survives whenever fewer than `maxReleases` ids exceed it — in
particular the just-deployed newest release at the only call site. -/
theorem c2_cleanup_retention (maxReleases : Nat) (releases : List String)
    (current : String) (hnd : releases.Nodup) (hmem : current ∈ releases)
    (hcount : (releases.filter fun r => strLtb current r).length < maxReleases) :
    current ∈ Releases.cleanupReleases maxReleases releases ∧
    (Releases.cleanupReleases maxReleases releases).length ≤ maxReleases := by
  constructor
  · have hperm : List.Perm
        ((Releases.sortedDesc releases).filter fun r => strLtb current r)
        (releases.filter fun r => strLtb current r) := by
      refine List.Perm.filter _ ?_
      refine (List.perm_ext_iff_of_nodup (Releases.nodup_sortedDesc hnd) hnd).mpr ?_
      intro a
      exact Releases.mem_sortedDesc
    refine Releases.mem_take_of_descSorted (Releases.sortedDesc releases) current
      maxReleases (Releases.descSorted_sortedDesc releases)
      (Releases.nodup_sortedDesc hnd) (Releases.mem_sortedDesc.mpr hmem) ?_
    rw [hperm.length_eq]
    exact hcount
  · simp [Releases.cleanupReleases]

/-- Witness for the amended C2: the newest release survives pruning. -/
theorem c2_cleanup_retention_witness :
    "v6" ∈ Releases.cleanupReleases Releases.MAX_RELEASES_default
        ["v1", "v2", "v3", "v4", "v5", "v6"] ∧
    (Releases.cleanupReleases Releases.MAX_RELEASES_default
        ["v1", "v2", "v3", "v4", "v5", "v6"]).length ≤
      Releases.MAX_RELEASES_default :=
  c2_cleanup_retention Releases.MAX_RELEASES_default
    ["v1", "v2", "v3", "v4", "v5", "v6"] "v6" (by decide) (by decide) (by decide)

/-! ## Rollback target resolution (deployer.js lines 513-541) -/

namespace Rollback

/-- Failure modes of `Deployer.rollback` before any runtime work. -/
inductive RollbackError where
  | noPrevious
  | notFound
deriving DecidableEq

/-- Target resolution of `Deployer.rollback`: read the releases directory,
sort descending; with fewer than two entries fail; otherwise take the
explicit `options.version` or `sortedReleases[1]`, and fail with not-found
when that directory does not exist.  On success the resolved target
becomes the new `current`. -/
def rollbackTarget (releases : List String) (optVersion : Option String) :
    Except RollbackError String :=
  match Releases.sortedDesc releases with
  | [] => .error .noPrevious
  | [_] => .error .noPrevious
  | _ :: second :: _ =>
    let target := optVersion.getD second
    if target ∈ releases then .ok target else .error .notFound

/-- The resolution the spec describes (modelled from the spec's words for
comparison): the release immediately preceding `current` in version-id
order, i.e. the greatest release id strictly below `current`. -/
def specPrecedingRelease (releases : List String) (current : String) :
    Option String :=
  match Releases.sortedDesc (releases.filter fun r => strLtb r current) with
  | [] => none
  | p :: _ => some p

end Rollback

/-- C3 counterexample: releases `v1, v3, v5` on disk with `current = v3`
(the state after a prior rollback).  The spec's resolution yields `v1`,
the release immediately preceding `current`; the code instead resolves
`sortedReleases[1] = v3` — the release `current` already references —
because it never consults `current`. -/
theorem c3_rollback_counterexample :
    Rollback.specPrecedingRelease ["v1", "v3", "v5"] "v3" = some "v1" ∧
    Rollback.rollbackTarget ["v1", "v3", "v5"] none = .ok "v3" ∧
    ("v3" : String) ≠ "v1" := by
  refine ⟨by rfl, by rfl, by decide⟩

/-- C3 amended: with no explicit version and at least two release
directories, rollback resolves to the second-greatest release id on disk,
independent of `current`, and in that branch never fails with not-found;
an explicit version fails with not-found exactly when its directory is
missing. -/
theorem c3_rollback_resolution (releases : List String) (x second : String)
    (rest : List String)
    (hsorted : Releases.sortedDesc releases = x :: second :: rest) :
    Rollback.rollbackTarget releases none = .ok second ∧
    ∀ v : String, Rollback.rollbackTarget releases (some v)
      = if v ∈ releases then .ok v else .error .notFound := by
  have hmem : second ∈ releases := by
    have : second ∈ Releases.sortedDesc releases := by
      rw [hsorted]
      simp
    exact Releases.mem_sortedDesc.mp this
  constructor
  · simp [Rollback.rollbackTarget, hsorted, hmem]
  · intro v
    simp [Rollback.rollbackTarget, hsorted]

/-- Witness for the amended C3 at a concrete release listing. -/
theorem c3_rollback_resolution_witness :
    Rollback.rollbackTarget ["v1", "v3", "v5"] none = .ok "v3" ∧
    ∀ v : String, Rollback.rollbackTarget ["v1", "v3", "v5"] (some v)
      = if v ∈ ["v1", "v3", "v5"] then .ok v else .error .notFound :=
  c3_rollback_resolution ["v1", "v3", "v5"] "v5" "v3" ["v1"] (by decide)

/-! ## Zero-downtime update (deployer.js lines 388-511)

The update workflow is modelled as a sequence of state transitions on a
per-project state record.  The outcome of the bounded health gate
(`waitForHealth`, lines 1031-1046, which throws on timeout) is injected as
a boolean; the `catch` block of `update` (lines 507-510) performs no
compensation and rethrows, so `Except.error` carries the state exactly as
the failing step left it. -/

namespace Update

/-- Observable per-project state touched by `Deployer.update`. -/
structure ProjectState where
  /-- Release the `current` symlink points to. -/
  currentLink : String
  /-- Release directories present under `releases/`. -/
  releases : List String
  /-- Release served by the canonical-identity containers
  (`docker-compose.yml`); `none` when stopped. -/
  canonicalServes : Option String
  /-- Whether the transitional containers started from
  `docker-compose.new.yml` are running. -/
  transitionalUp : Bool
  /-- `metadata.currentVersion`. -/
  metadataVersion : String
  /-- `metadata.previousVersion`. -/
  metadataPrevious : Option String
deriving DecidableEq

/-- `Deployer.update` for a project whose directory exists, with the
health-gate outcome injected: clone the new release (line 413), copy
shared files, write `docker-compose.new.yml` and build (lines 440-456),
start the transitional containers alongside the old (lines 462-465), poll
the health gate (line 468) — on timeout the raised error propagates
through the rethrowing catch block with no teardown — then atomically
repoint `current` (lines 471-473), promote the temp compose file, stop
the old containers and restart under the canonical identity
(lines 476-489), update metadata (lines 492-499) and prune old releases
(line 502) with the configured maximum. -/
def update (healthOk : Bool) (maxReleases : Nat) (newVersion : String)
    (s : ProjectState) : Except ProjectState ProjectState :=
  let s1 := { s with releases := s.releases ++ [newVersion] }
  let s2 := { s1 with transitionalUp := true }
  if healthOk = false then .error s2
  else
    let s3 := { s2 with currentLink := newVersion }
    let s4 := { s3 with canonicalServes := none, transitionalUp := false }
    let s5 := { s4 with canonicalServes := some newVersion }
    let s6 := { s5 with
      metadataVersion := newVersion,
      metadataPrevious := some s.currentLink }
    .ok { s6 with
      releases := Releases.cleanupReleases maxReleases s6.releases }

end Update

/-- C1 counterexample: a concrete update whose health gate times out.
The update fails and `current` plus the previously running instance are
unchanged, but the transitional containers started from
`docker-compose.new.yml` are still up — a new instance is left serving,
contradicting the claim. -/
theorem c1_update_timeout_counterexample :
    Update.update false Releases.MAX_RELEASES_default "v2"
        ⟨"v1", ["v1"], some "v1", false, "v1", none⟩
      = .error ⟨"v1", ["v1", "v2"], some "v1", true, "v1", none⟩ ∧
    (⟨"v1", ["v1", "v2"], some "v1", true, "v1", none⟩ :
        Update.ProjectState).transitionalUp = true := by
  refine ⟨by rfl, by rfl⟩

/-- C1 amended: on health-gate timeout the update fails, `current` and the
previously running canonical instance are untouched, and the metadata is
unchanged — but the transitional instance is left running and the new
release directory remains on disk; the failure state is exactly the input
state plus the new release directory and the running transitional
containers. -/
theorem c1_update_timeout_frame (maxReleases : Nat) (newVersion : String)
    (s : Update.ProjectState) :
    Update.update false maxReleases newVersion s
      = .error { s with
          releases := s.releases ++ [newVersion],
          transitionalUp := true } := by
  rfl

/-! ## Credential resolution (src/src/services/secrets-config.js)

The three tiers are modelled by their observable contents at the time of a
call: the two process environment variables, the outcome of
`secrets.retrieve` on the vault (which may throw — caught and skipped —,
return `null`, or return a stored object), and the legacy `config.json`
contents.  JS truthiness on the string fields is explicit: an absent field
or an empty string is falsy. -/

namespace Creds

/-- Outcome of `this.secrets.retrieve` on the encrypted tier. -/
inductive VaultOutcome where
  /-- `retrieve` threw (storage unavailable or corrupted); both callers
  catch this and fall through. -/
  | err
  /-- `retrieve` returned `null` (no stored secret). -/
  | missing
  /-- The stored object, with its optional `email`/`password` fields. -/
  | found (email pass : Option String)
deriving DecidableEq

/-- State of the three credential tiers at call time. -/
structure Tiers where
  envEmail : Option String
  envPassword : Option String
  vault : VaultOutcome
  /-- `config.json` content: `none` when the file is absent, otherwise
  its optional `npmEmail`/`npmPassword` fields. -/
  legacy : Option (Option String × Option String)
deriving DecidableEq

/-- JS truthiness of an optional string: set and non-empty. -/
def truthy : Option String → Bool
  | none => false
  | some s => !s.isEmpty

/-- The legacy fallback shared by both functions (lines 56-73 and
110-113): return the plaintext credentials when both fields are truthy. -/
def legacyCreds (t : Tiers) : Option (String × String) :=
  match t.legacy with
  | some (e, p) =>
    if truthy e && truthy p then some (e.getD "", p.getD "") else none
  | none => none

/-- `SecretsConfig.getNpmCredentials` (lines 36-74): environment variables
first, then the encrypted vault, then the legacy plaintext store. -/
def getNpmCredentials (t : Tiers) : Option (String × String) :=
  if truthy t.envEmail && truthy t.envPassword then
    some (t.envEmail.getD "", t.envPassword.getD "")
  else
    match t.vault with
    | .found e p =>
      if truthy e && truthy p then some (e.getD "", p.getD "")
      else legacyCreds t
    | _ => legacyCreds t

/-- The tier labels reported by `getCredentialSource`. -/
inductive CredSource where
  | fromEnv
  | fromVault
  | fromLegacy
  | noSource
deriving DecidableEq

/-- `SecretsConfig.getCredentialSource` (lines 98-116). -/
def getCredentialSource (t : Tiers) : CredSource :=
  if truthy t.envEmail && truthy t.envPassword then .fromEnv
  else
    match t.vault with
    | .found e p =>
      if truthy e && truthy p then .fromVault
      else
        match t.legacy with
        | some (le, lp) => if truthy le && truthy lp then .fromLegacy else .noSource
        | none => .noSource
    | _ =>
      match t.legacy with
      | some (le, lp) => if truthy le && truthy lp then .fromLegacy else .noSource
      | none => .noSource

/-- A tier is complete when it offers both an email and a password. -/
def envComplete (t : Tiers) : Bool := truthy t.envEmail && truthy t.envPassword

/-- Completeness of the vault tier. -/
def vaultComplete (t : Tiers) : Bool :=
  match t.vault with
  | .found e p => truthy e && truthy p
  | _ => false

/-- Completeness of the legacy tier. -/
def legacyComplete (t : Tiers) : Bool :=
  match t.legacy with
  | some (e, p) => truthy e && truthy p
  | none => false

end Creds

/-- C8: credential resolution is first-match-wins over the ordered chain
(environment override, encrypted vault, legacy plaintext store):
`getNpmCredentials` returns the credentials of the highest-priority
complete tier — `none` if no tier is complete — and `getCredentialSource`
reports exactly that tier. -/
theorem c8_credential_chain (t : Creds.Tiers) :
    (Creds.envComplete t = true →
      Creds.getNpmCredentials t
          = some (t.envEmail.getD "", t.envPassword.getD "") ∧
      Creds.getCredentialSource t = .fromEnv) ∧
    (Creds.envComplete t = false → Creds.vaultComplete t = true →
      (∀ e p, t.vault = .found e p →
        Creds.getNpmCredentials t = some (e.getD "", p.getD "")) ∧
      Creds.getCredentialSource t = .fromVault) ∧
    (Creds.envComplete t = false → Creds.vaultComplete t = false →
      Creds.legacyComplete t = true →
      (∀ e p, t.legacy = some (e, p) →
        Creds.getNpmCredentials t = some (e.getD "", p.getD "")) ∧
      Creds.getCredentialSource t = .fromLegacy) ∧
    (Creds.envComplete t = false → Creds.vaultComplete t = false →
      Creds.legacyComplete t = false →
      Creds.getNpmCredentials t = none ∧
      Creds.getCredentialSource t = .noSource) := by
  obtain ⟨ee, ep, v, lg⟩ := t
  refine ⟨?_, ?_, ?_, ?_⟩
  · intro h
    simp only [Creds.envComplete] at h
    simp [Creds.getNpmCredentials, Creds.getCredentialSource, h]
  · intro h1 h2
    simp only [Creds.envComplete] at h1
    cases v with
    | err => simp [Creds.vaultComplete] at h2
    | missing => simp [Creds.vaultComplete] at h2
    | found e p =>
      simp only [Creds.vaultComplete] at h2
      constructor
      · intro e0 p0 heq
        cases heq
        simp [Creds.getNpmCredentials, h1, h2]
      · simp [Creds.getCredentialSource, h1, h2]
  · intro h1 h2 h3
    simp only [Creds.envComplete] at h1
    simp only [Creds.legacyComplete] at h3
    cases lg with
    | none => cases h3
    | some pr =>
      obtain ⟨le, lp⟩ := pr
      simp only at h3
      constructor
      · intro e0 p0 heq
        cases heq
        cases v with
        | err =>
          simp [Creds.getNpmCredentials, Creds.legacyCreds, h1, h3]
        | missing =>
          simp [Creds.getNpmCredentials, Creds.legacyCreds, h1, h3]
        | found e p =>
          simp only [Creds.vaultComplete] at h2
          simp [Creds.getNpmCredentials, Creds.legacyCreds, h1, h2, h3]
      · cases v with
        | err => simp [Creds.getCredentialSource, h1, h3]
        | missing => simp [Creds.getCredentialSource, h1, h3]
        | found e p =>
          simp only [Creds.vaultComplete] at h2
          simp [Creds.getCredentialSource, h1, h2, h3]
  · intro h1 h2 h3
    simp only [Creds.envComplete] at h1
    cases v with
    | err =>
      cases lg with
      | none => simp [Creds.getNpmCredentials, Creds.getCredentialSource,
          Creds.legacyCreds, h1]
      | some pr =>
        obtain ⟨le, lp⟩ := pr
        simp only [Creds.legacyComplete] at h3
        simp [Creds.getNpmCredentials, Creds.getCredentialSource,
          Creds.legacyCreds, h1, h3]
    | missing =>
      cases lg with
      | none => simp [Creds.getNpmCredentials, Creds.getCredentialSource,
          Creds.legacyCreds, h1]
      | some pr =>
        obtain ⟨le, lp⟩ := pr
        simp only [Creds.legacyComplete] at h3
        simp [Creds.getNpmCredentials, Creds.getCredentialSource,
          Creds.legacyCreds, h1, h3]
    | found e p =>
      simp only [Creds.vaultComplete] at h2
      cases lg with
      | none => simp [Creds.getNpmCredentials, Creds.getCredentialSource,
          Creds.legacyCreds, h1, h2]
      | some pr =>
        obtain ⟨le, lp⟩ := pr
        simp only [Creds.legacyComplete] at h3
        simp [Creds.getNpmCredentials, Creds.getCredentialSource,
          Creds.legacyCreds, h1, h2, h3]

/-- Witness for C8: a state where the vault tier wins over a populated
legacy tier. -/
theorem c8_credential_chain_witness :
    Creds.getNpmCredentials
        ⟨none, none, .found (some "a@b") (some "pw"),
          some (some "x@y", some "old")⟩ = some ("a@b", "pw") ∧
    Creds.getCredentialSource
        ⟨none, none, .found (some "a@b") (some "pw"),
          some (some "x@y", some "old")⟩ = .fromVault := by
  have h := c8_credential_chain
    ⟨none, none, .found (some "a@b") (some "pw"), some (some "x@y", some "old")⟩
  exact ⟨(h.2.1 (by decide) (by decide)).1 (some "a@b") (some "pw") rfl,
    (h.2.1 (by decide) (by decide)).2⟩

/-! ## Database provisioning (src/src/services/database.js)

The engine is modelled semantically for a single project: whether the
account exists and with which password, whether the database object
exists, and whether the grants are in place.  A login probe
(`validateMySqlConnection` / a psql login) succeeds exactly when the
account exists with the probed password and the database object with its
grants is reachable.  The registry entry for the project carries the
recorded password. -/

namespace Provision

/-- Engine-side state for one project's account and database. -/
structure Engine where
  userExists : Bool
  /-- Password of the engine account; meaningful when `userExists`. -/
  userPassword : String
  dbExists : Bool
  granted : Bool
deriving DecidableEq

/-- Registry entry for the project (`registry[kind][project]`). -/
structure RegEntry where
  password : String
deriving DecidableEq

/-- `validateMySqlConnection` (lines 459-469): `SELECT 1` against the
database as the user; succeeds when the account exists with this password
and the granted database is reachable. -/
def validateConn (e : Engine) (pwd : String) : Bool :=
  e.userExists && pwd == e.userPassword && e.dbExists && e.granted

/-- `resetMySqlUserPassword` (lines 474-479): `ALTER USER`. -/
def resetPassword (e : Engine) (pwd : String) : Engine :=
  { e with userPassword := pwd }

/-- `createMySqlUser` (lines 484-489): `CREATE USER`. -/
def createUser (e : Engine) (pwd : String) : Engine :=
  { e with userExists := true, userPassword := pwd }

/-- `ensureMySqlDatabase` (lines 494-499): `CREATE DATABASE IF NOT
EXISTS` plus `GRANT ALL PRIVILEGES`. -/
def ensureDatabase (e : Engine) : Engine :=
  { e with dbExists := true, granted := true }

/-- The four-branch password decision of `provisionMySql`
(lines 515-543), returning the effective password and the engine state
after the corrective action.  `newPassword` is the `generatePassword`
sample. -/
def mysqlBranch (newPassword : String) (reg : Option RegEntry) (e : Engine) :
    String × Engine :=
  match e.userExists, reg with
  | true, some entry =>
    if validateConn e entry.password then (entry.password, e)
    else (entry.password, resetPassword e entry.password)
  | true, none => (newPassword, resetPassword e newPassword)
  | false, some entry => (entry.password, createUser e entry.password)
  | false, none => (newPassword, createUser e newPassword)

/-- `DatabaseService.provisionMySql` (lines 507-577): run the decision
branch, ensure database and grants, persist the registry entry, then
re-probe the connection as a post-condition and throw on failure
(lines 560-564); `provision` (lines 711-732) rethrows that error. -/
def provisionMySql (newPassword : String) (reg : Option RegEntry)
    (e : Engine) : Except String (String × Engine × RegEntry) :=
  let pe := mysqlBranch newPassword reg e
  let e2 := ensureDatabase pe.2
  let entry : RegEntry := ⟨pe.1⟩
  if validateConn e2 pe.1 then .ok (pe.1, e2, entry)
  else .error "MySQL connection validation failed"

/-- `CREATE USER ... || true` of `provisionPostgres` (line 753): the shell
suffix swallows the failure when the user already exists, leaving the
existing account (and its password) untouched. -/
def pgCreateUser (e : Engine) (pwd : String) : Engine :=
  if e.userExists then e else { e with userExists := true, userPassword := pwd }

/-- `CREATE DATABASE ... || true` (line 756): no-op when it exists. -/
def pgCreateDb (e : Engine) : Engine :=
  if e.dbExists then e else { e with dbExists := true }

/-- `GRANT ALL PRIVILEGES` (line 759). -/
def pgGrant (e : Engine) : Engine :=
  { e with granted := true }

/-- `ALTER USER ... WITH PASSWORD` (line 765). -/
def pgAlterPassword (e : Engine) (pwd : String) : Engine :=
  { e with userPassword := pwd }

/-- `DatabaseService.provisionPostgres` (lines 737-793): reuse the
registry password or generate one, run the idempotent create/grant
commands, reset the password only when a registry entry existed, persist
the registry — and return without any final login probe. -/
def provisionPostgres (newPassword : String) (reg : Option RegEntry)
    (e : Engine) : Except String (String × Engine × RegEntry) :=
  let password := (reg.map RegEntry.password).getD newPassword
  let e1 := pgCreateUser e password
  let e2 := pgCreateDb e1
  let e3 := pgGrant e2
  let e4 := match reg with
    | some _ => pgAlterPassword e3 password
    | none => e3
  .ok (password, e4, ⟨password⟩)

end Provision

/-- C7 counterexample: a postgres provisioning run with no registry entry
but a pre-existing engine account under a different password.  `CREATE
USER` is swallowed by `|| true`, no `ALTER USER` runs (no registry entry),
and no post-condition probe exists: `provisionPostgres` returns success
while a login with the password it recorded fails — the failure is
silently swallowed, contradicting the claim for the postgres branch. -/
theorem c7_postgres_no_postcondition_probe :
    Provision.provisionPostgres "new" none ⟨true, "old", true, true⟩
      = .ok ("new", ⟨true, "old", true, true⟩, ⟨"new"⟩) ∧
    Provision.validateConn ⟨true, "old", true, true⟩ "new" = false := by
  refine ⟨by rfl, by rfl⟩

/-- C7 amended: the MySQL branch behaves as claimed — every branch ends
with `ensureMySqlDatabase` followed by a login re-probe, success implies
the probe passed on the ensured state, and a failing probe is surfaced as
an error — while the postgres branch performs its idempotent ensure steps
but never re-probes and always returns success. -/
theorem c7_provision_postcondition (newPassword : String)
    (reg : Option Provision.RegEntry) (e : Provision.Engine) :
    (∀ pwd e2 entry,
      Provision.provisionMySql newPassword reg e = .ok (pwd, e2, entry) →
      Provision.validateConn e2 pwd = true ∧ e2.dbExists = true ∧
        e2.granted = true ∧ entry.password = pwd) ∧
    (Provision.validateConn
        (Provision.ensureDatabase (Provision.mysqlBranch newPassword reg e).2)
        (Provision.mysqlBranch newPassword reg e).1 = false →
      Provision.provisionMySql newPassword reg e
        = .error "MySQL connection validation failed") ∧
    (∃ pwd e4, Provision.provisionPostgres newPassword reg e
        = .ok (pwd, e4, ⟨pwd⟩)) := by
  refine ⟨?_, ?_, ?_⟩
  · intro pwd e2 entry hok
    simp only [Provision.provisionMySql] at hok
    by_cases hv : Provision.validateConn
        (Provision.ensureDatabase (Provision.mysqlBranch newPassword reg e).2)
        (Provision.mysqlBranch newPassword reg e).1 = true
    · rw [if_pos hv] at hok
      cases hok
      refine ⟨hv, rfl, rfl, rfl⟩
    · rw [if_neg hv] at hok
      cases hok
  · intro hv
    simp only [Provision.provisionMySql]
    rw [if_neg (by simp [hv])]
  · exact ⟨_, _, rfl⟩

/-- Witness for the amended C7 at a concrete state: a fresh MySQL
provisioning succeeds and its post-condition probe passes. -/
theorem c7_provision_postcondition_witness :
    Provision.validateConn
        ⟨true, "pw1", true, true⟩ "pw1" = true ∧
    Provision.provisionMySql "pw1" none ⟨false, "", false, false⟩
      = .ok ("pw1", ⟨true, "pw1", true, true⟩, ⟨"pw1"⟩) := by
  have h := (c7_provision_postcondition "pw1" none
    ⟨false, "", false, false⟩).1 "pw1" ⟨true, "pw1", true, true⟩ ⟨"pw1"⟩ (by rfl)
  exact ⟨h.1, by rfl⟩

/-! ## Version id generation (deployer.js lines 883-886)

`generateVersion` renders `new Date()` as
`v${yyyy}${mm}${dd}.${hh}${mi}${ss}`: the year via JS number-to-string
conversion, the other fields via `String(x).padStart(2, '0')`, with
`getMonth()` zero-based.  The `Date` components are modelled as a record
including the milliseconds the code never reads. -/

/-- The decimal digit character for `d` (valid for `d < 10`). -/
def digitChar (d : Nat) : Char := Char.ofNat (48 + d)

/-- Fuel-driven JS decimal rendering `String(n)`; the fuel (first
argument) only needs to exceed the digit count, and `jsNumChars` passes
`n` itself as fuel. -/
def jsNumAux : Nat → Nat → List Char
  | 0, n => [digitChar n]
  | fuel + 1, n =>
    if n < 10 then [digitChar n]
    else jsNumAux fuel (n / 10) ++ [digitChar (n % 10)]

/-- JS `String(n)` for a natural number. -/
def jsNumChars (n : Nat) : List Char := jsNumAux n n

/-- Fixed-width decimal rendering with leading zeros. -/
def padNum : Nat → Nat → List Char
  | 0, _ => []
  | w + 1, n => digitChar (n / 10 ^ w) :: padNum w (n % 10 ^ w)

/-- JS `String(n).padStart(2, '0')`. -/
def padTwo (n : Nat) : List Char :=
  List.replicate (2 - (jsNumChars n).length) '0' ++ jsNumChars n

/-- Components of a JS `Date` value as the code reads them
(`getMonth()` is 0-based); `ms` exists on the clock but is never
rendered. -/
structure JsDate where
  year : Nat
  month : Nat
  day : Nat
  hour : Nat
  minute : Nat
  second : Nat
  ms : Nat
deriving DecidableEq

/-- `Deployer.generateVersion` (lines 883-886), as the character list of
the produced string. -/
def versionChars (t : JsDate) : List Char :=
  'v' :: (jsNumChars t.year ++ (padTwo (t.month + 1) ++ (padTwo t.day ++
    ('.' :: (padTwo t.hour ++ (padTwo t.minute ++ padTwo t.second))))))

/-- `Deployer.generateVersion` as a string. -/
def generateVersion (t : JsDate) : String := String.mk (versionChars t)

/-- Strict chronological order of two clock readings (full precision,
milliseconds included). -/
def chronoBefore (t1 t2 : JsDate) : Prop :=
  t1.year < t2.year ∨ (t1.year = t2.year ∧
  (t1.month < t2.month ∨ (t1.month = t2.month ∧
  (t1.day < t2.day ∨ (t1.day = t2.day ∧
  (t1.hour < t2.hour ∨ (t1.hour = t2.hour ∧
  (t1.minute < t2.minute ∨ (t1.minute = t2.minute ∧
  (t1.second < t2.second ∨ (t1.second = t2.second ∧
  t1.ms < t2.ms)))))))))))

/-- Strict chronological order at second granularity (the precision the
version format retains). -/
def secondsBefore (t1 t2 : JsDate) : Prop :=
  t1.year < t2.year ∨ (t1.year = t2.year ∧
  (t1.month < t2.month ∨ (t1.month = t2.month ∧
  (t1.day < t2.day ∨ (t1.day = t2.day ∧
  (t1.hour < t2.hour ∨ (t1.hour = t2.hour ∧
  (t1.minute < t2.minute ∨ (t1.minute = t2.minute ∧
  t1.second < t2.second)))))))))

theorem padNum_length (w n : Nat) : (padNum w n).length = w := by
  induction w generalizing n with
  | zero => rfl
  | succ w ih => simp [padNum, ih]

theorem digitChar_lt {d1 d2 : Nat} (h1 : d1 < 10) (h2 : d2 < 10)
    (h : d1 < d2) : digitChar d1 < digitChar d2 := by
  interval_cases d1 <;> interval_cases d2 <;> decide

theorem padNum_lt : ∀ (w a b : Nat), a < b → b < 10 ^ w →
    listLtb (padNum w a) (padNum w b) = true := by
  intro w
  induction w with
  | zero =>
    intro a b hab hb
    simp at hb
    omega
  | succ w ih =>
    intro a b hab hb
    have h10 : 0 < 10 ^ w := Nat.pos_pow_of_pos w (by norm_num)
    have hpow : (10:Nat) ^ (w + 1) = 10 * 10 ^ w := by ring
    have hdle : a / 10 ^ w ≤ b / 10 ^ w := Nat.div_le_div_right (le_of_lt hab)
    have hdb : b / 10 ^ w < 10 := by
      rw [Nat.div_lt_iff_lt_mul h10]
      omega
    rcases lt_or_eq_of_le hdle with hlt | heq
    · have hda : a / 10 ^ w < 10 := lt_of_le_of_lt hdle hdb
      simp [padNum, listLtb, digitChar_lt hda hdb hlt]
    · rw [padNum, padNum, heq, listLtb_cons_same]
      refine ih (a % 10 ^ w) (b % 10 ^ w) ?_ (Nat.mod_lt _ h10)
      have ha2 := Nat.div_add_mod a (10 ^ w)
      have hb2 := Nat.div_add_mod b (10 ^ w)
      have hsame : 10 ^ w * (a / 10 ^ w) = 10 ^ w * (b / 10 ^ w) := by rw [heq]
      omega

theorem listLtb_append_congr : ∀ (p a b : List Char),
    listLtb a b = true → listLtb (p ++ a) (p ++ b) = true := by
  intro p
  induction p with
  | nil => intro a b h; simpa using h
  | cons c cs ih =>
    intro a b h
    rw [List.cons_append, List.cons_append, listLtb_cons_same]
    exact ih a b h

theorem listLtb_append_of_lt : ∀ (a b zs ws : List Char),
    listLtb a b = true → a.length = b.length →
    listLtb (a ++ zs) (b ++ ws) = true := by
  intro a
  induction a with
  | nil =>
    intro b zs ws hab hlen
    cases b with
    | nil => cases hab
    | cons y ys => simp at hlen
  | cons x xs ih =>
    intro b zs ws hab hlen
    cases b with
    | nil => simp at hlen
    | cons y ys =>
      by_cases hxy : x < y
      · simp [listLtb, hxy]
      · by_cases hyx : y < x
        · simp [listLtb, hxy, hyx] at hab
        · simp only [listLtb, if_neg hxy, if_neg hyx] at hab
          simp only [List.cons_append, listLtb, if_neg hxy, if_neg hyx]
          exact ih ys zs ws hab (by simpa using hlen)

theorem jsNumAux_small (fuel n : Nat) (h : n < 10) :
    jsNumAux fuel n = [digitChar n] := by
  cases fuel <;> simp [jsNumAux, h]

theorem jsNumAux_step (fuel n : Nat) (h : 10 ≤ n) :
    jsNumAux (fuel + 1) n = jsNumAux fuel (n / 10) ++ [digitChar (n % 10)] := by
  simp [jsNumAux, Nat.not_lt.mpr h]

theorem digitChar_zero : digitChar 0 = '0' := by decide

theorem padNum_two (n : Nat) : padNum 2 n = [digitChar (n / 10), digitChar (n % 10)] := by
  have p1 : (10:Nat) ^ 1 = 10 := by norm_num
  have p0 : (10:Nat) ^ 0 = 1 := by norm_num
  simp only [padNum, p1, p0, Nat.div_one]

theorem padTwo_eq_padNum (n : Nat) (h : n < 100) : padTwo n = padNum 2 n := by
  by_cases h1 : n < 10
  · have e0 : n / 10 = 0 := by omega
    have e1 : n % 10 = n := by omega
    have hl : padTwo n = ['0', digitChar n] := by
      simp [padTwo, jsNumChars, jsNumAux_small _ _ h1]
    rw [hl, padNum_two, e0, e1, digitChar_zero]
  · have h10 : 10 ≤ n := by omega
    obtain ⟨f, rfl⟩ : ∃ f, n = f + 1 := ⟨n - 1, by omega⟩
    have hsmall : (f + 1) / 10 < 10 := by omega
    have hchars : jsNumChars (f + 1)
        = [digitChar ((f + 1) / 10), digitChar ((f + 1) % 10)] := by
      unfold jsNumChars
      rw [jsNumAux_step f (f + 1) h10, jsNumAux_small _ _ hsmall]
      rfl
    rw [padTwo, hchars, padNum_two]
    simp

theorem jsNumAux_year (fuel y : Nat) (hf : 3 ≤ fuel) (hy1 : 1000 ≤ y)
    (hy2 : y ≤ 9999) :
    jsNumAux fuel y = [digitChar (y / 10 / 10 / 10), digitChar (y / 10 / 10 % 10),
      digitChar (y / 10 % 10), digitChar (y % 10)] := by
  obtain ⟨f, rfl⟩ : ∃ f, fuel = f + 3 := ⟨fuel - 3, by omega⟩
  rw [jsNumAux_step (f + 2) y (by omega),
    jsNumAux_step (f + 1) (y / 10) (by omega),
    jsNumAux_step f (y / 10 / 10) (by omega),
    jsNumAux_small f (y / 10 / 10 / 10) (by omega)]
  rfl

theorem jsNum_year (y : Nat) (hy1 : 1000 ≤ y) (hy2 : y ≤ 9999) :
    jsNumChars y = padNum 4 y := by
  have lhs : jsNumChars y = [digitChar (y / 10 / 10 / 10),
      digitChar (y / 10 / 10 % 10), digitChar (y / 10 % 10), digitChar (y % 10)] := by
    unfold jsNumChars
    exact jsNumAux_year y y (by omega) hy1 hy2
  have p3 : (10:Nat) ^ 3 = 1000 := by norm_num
  have p2 : (10:Nat) ^ 2 = 100 := by norm_num
  have p1 : (10:Nat) ^ 1 = 10 := by norm_num
  have p0 : (10:Nat) ^ 0 = 1 := by norm_num
  have e1 : y / 10 / 10 / 10 = y / 1000 := by omega
  have e2 : y / 10 / 10 % 10 = y % 1000 / 100 := by omega
  have e3 : y / 10 % 10 = y % 1000 % 100 / 10 := by omega
  have e4 : y % 10 = y % 1000 % 100 % 10 := by omega
  rw [lhs]
  simp only [padNum, p3, p2, p1, p0, Nat.div_one]
  rw [e1, e2, e3, e4]

instance chronoBeforeDec (t1 t2 : JsDate) : Decidable (chronoBefore t1 t2) := by
  unfold chronoBefore
  exact inferInstance

instance secondsBeforeDec (t1 t2 : JsDate) : Decidable (secondsBefore t1 t2) := by
  unfold secondsBefore
  exact inferInstance

/-- C9 counterexample: two clock readings 100ms apart within the same
second are chronologically ordered, yet `generateVersion` renders them to
the identical version id — the id of the earlier time is not strictly
less. -/
theorem c9_subsecond_counterexample :
    chronoBefore ⟨2024, 4, 10, 12, 0, 0, 100⟩ ⟨2024, 4, 10, 12, 0, 0, 200⟩ ∧
    generateVersion ⟨2024, 4, 10, 12, 0, 0, 100⟩
      = generateVersion ⟨2024, 4, 10, 12, 0, 0, 200⟩ ∧
    strLtb (generateVersion ⟨2024, 4, 10, 12, 0, 0, 100⟩)
      (generateVersion ⟨2024, 4, 10, 12, 0, 0, 200⟩) = false := by
  refine ⟨by decide, by rfl, ?_⟩
  rw [show generateVersion ⟨2024, 4, 10, 12, 0, 0, 200⟩
    = generateVersion ⟨2024, 4, 10, 12, 0, 0, 100⟩ from rfl]
  exact strLtb_irrefl _

/-- C9 amended: for clock readings with valid calendar ranges and a
four-digit year, whose second-granularity truncations are strictly
ordered (the precision the format retains), the generated version ids are
strictly ordered lexicographically. -/
theorem c9_version_monotonic (t1 t2 : JsDate)
    (h1y : 1000 ≤ t1.year) (h1y9 : t1.year ≤ 9999) (h1mo : t1.month ≤ 11)
    (h1d : t1.day ≤ 31) (h1h : t1.hour ≤ 23) (h1mi : t1.minute ≤ 59)
    (h1s : t1.second ≤ 59)
    (h2y : 1000 ≤ t2.year) (h2y9 : t2.year ≤ 9999) (h2mo : t2.month ≤ 11)
    (h2d : t2.day ≤ 31) (h2h : t2.hour ≤ 23) (h2mi : t2.minute ≤ 59)
    (h2s : t2.second ≤ 59)
    (hlt : secondsBefore t1 t2) :
    strLtb (generateVersion t1) (generateVersion t2) = true := by
  show listLtb (versionChars t1) (versionChars t2) = true
  rw [versionChars, versionChars,
    jsNum_year t1.year h1y h1y9, jsNum_year t2.year h2y h2y9,
    padTwo_eq_padNum (t1.month + 1) (by omega),
    padTwo_eq_padNum (t2.month + 1) (by omega),
    padTwo_eq_padNum t1.day (by omega), padTwo_eq_padNum t2.day (by omega),
    padTwo_eq_padNum t1.hour (by omega), padTwo_eq_padNum t2.hour (by omega),
    padTwo_eq_padNum t1.minute (by omega), padTwo_eq_padNum t2.minute (by omega),
    padTwo_eq_padNum t1.second (by omega), padTwo_eq_padNum t2.second (by omega)]
  have pow4 : (10:Nat) ^ 4 = 10000 := by norm_num
  have pow2 : (10:Nat) ^ 2 = 100 := by norm_num
  rcases hlt with hy | ⟨hyeq, hmo | ⟨hmoeq, hd | ⟨hdeq, hh | ⟨hheq, hmi | ⟨hmieq, hs⟩⟩⟩⟩⟩
  · rw [listLtb_cons_same]
    exact listLtb_append_of_lt _ _ _ _
      (padNum_lt 4 t1.year t2.year hy (by omega))
      (by rw [padNum_length, padNum_length])
  · rw [hyeq, listLtb_cons_same]
    refine listLtb_append_congr _ _ _ ?_
    exact listLtb_append_of_lt _ _ _ _
      (padNum_lt 2 (t1.month + 1) (t2.month + 1) (by omega) (by omega))
      (by rw [padNum_length, padNum_length])
  · rw [hyeq, hmoeq, listLtb_cons_same]
    refine listLtb_append_congr _ _ _ ?_
    refine listLtb_append_congr _ _ _ ?_
    exact listLtb_append_of_lt _ _ _ _
      (padNum_lt 2 t1.day t2.day hd (by omega))
      (by rw [padNum_length, padNum_length])
  · rw [hyeq, hmoeq, hdeq, listLtb_cons_same]
    refine listLtb_append_congr _ _ _ ?_
    refine listLtb_append_congr _ _ _ ?_
    refine listLtb_append_congr _ _ _ ?_
    rw [listLtb_cons_same]
    exact listLtb_append_of_lt _ _ _ _
      (padNum_lt 2 t1.hour t2.hour hh (by omega))
      (by rw [padNum_length, padNum_length])
  · rw [hyeq, hmoeq, hdeq, hheq, listLtb_cons_same]
    refine listLtb_append_congr _ _ _ ?_
    refine listLtb_append_congr _ _ _ ?_
    refine listLtb_append_congr _ _ _ ?_
    rw [listLtb_cons_same]
    refine listLtb_append_congr _ _ _ ?_
    exact listLtb_append_of_lt _ _ _ _
      (padNum_lt 2 t1.minute t2.minute hmi (by omega))
      (by rw [padNum_length, padNum_length])
  · rw [hyeq, hmoeq, hdeq, hheq, hmieq, listLtb_cons_same]
    refine listLtb_append_congr _ _ _ ?_
    refine listLtb_append_congr _ _ _ ?_
    refine listLtb_append_congr _ _ _ ?_
    rw [listLtb_cons_same]
    refine listLtb_append_congr _ _ _ ?_
    refine listLtb_append_congr _ _ _ ?_
    have := listLtb_append_of_lt (padNum 2 t1.second) (padNum 2 t2.second) [] []
      (padNum_lt 2 t1.second t2.second hs (by omega))
      (by rw [padNum_length, padNum_length])
    simpa using this

/-- Witness for the amended C9: two readings one second apart produce
strictly ordered ids. -/
theorem c9_version_monotonic_witness :
    strLtb (generateVersion ⟨2024, 4, 10, 12, 0, 0, 900⟩)
      (generateVersion ⟨2024, 4, 10, 12, 0, 1, 100⟩) = true :=
  c9_version_monotonic ⟨2024, 4, 10, 12, 0, 0, 900⟩ ⟨2024, 4, 10, 12, 0, 1, 100⟩
    (by decide) (by decide) (by decide) (by decide) (by decide) (by decide)
    (by decide) (by decide) (by decide) (by decide) (by decide) (by decide)
    (by decide) (by decide) (by decide)

/-! ## Env-file codec (src/src/detectors/index.js lines 129-289)

JS strings are modelled as `List Char`; an env object is an association
list in property-insertion order (the validated keys can never be
integer-like, so JS enumeration order is insertion order).  `String
.replace(/pat/g, rep)` for the literal one- and two-character patterns the
code uses is modelled by an explicit left-to-right scan that never
rescans replacements, exactly as the JS engine behaves. -/

namespace EnvFile

/-- The backslash character. -/
def bslash : Char := '\\'

/-- The single-quote character. -/
def squote : Char := Char.ofNat 39

/-- The backtick character. -/
def btick : Char := Char.ofNat 96

/-- The byte-order mark `\uFEFF` stripped at the start of a file. -/
def bomChar : Char := Char.ofNat 0xFEFF

/-- The JS regex `\s` class (WhiteSpace plus LineTerminator), by code
point; JS `trim()` strips exactly the same set. -/
def jsSpace (c : Char) : Bool :=
  (9 ≤ c.toNat && c.toNat ≤ 13) || c.toNat = 32 || c.toNat = 160 ||
  c.toNat = 5760 || (8192 ≤ c.toNat && c.toNat ≤ 8202) || c.toNat = 8232 ||
  c.toNat = 8233 || c.toNat = 8239 || c.toNat = 8287 || c.toNat = 12288 ||
  c.toNat = 65279

/-- JS `String.prototype.trim`. -/
def jsTrim (s : List Char) : List Char :=
  ((s.dropWhile jsSpace).reverse.dropWhile jsSpace).reverse

/-- First character class of `KEY_REGEX` `^[A-Za-z_][A-Za-z0-9_]*$`
(line 143), by code point. -/
def keyHeadChar (c : Char) : Bool :=
  (65 ≤ c.toNat && c.toNat ≤ 90) || (97 ≤ c.toNat && c.toNat ≤ 122) ||
  c.toNat = 95

/-- Continuation character class of `KEY_REGEX`. -/
def keyTailChar (c : Char) : Bool :=
  keyHeadChar c || (48 ≤ c.toNat && c.toNat ≤ 57)

/-- `KEY_REGEX.test(key)`. -/
def keyRegexOk (k : List Char) : Bool :=
  match k with
  | [] => false
  | c :: rest => keyHeadChar c && rest.all keyTailChar

/-- `toLowerCase` on the ASCII range relevant to validated keys. -/
def asciiLower (c : Char) : Char :=
  if 65 ≤ c.toNat && c.toNat ≤ 90 then Char.ofNat (c.toNat + 32) else c

/-- `DANGEROUS_KEYS` (line 144). -/
def DANGEROUS_KEYS : List (List Char) :=
  ["__proto__".data, "constructor".data, "prototype".data]

/-- `MAX_LINE_LENGTH` (line 141). -/
def MAX_LINE_LENGTH : Nat := 10000

/-- `MAX_KEY_LENGTH` (line 142). -/
def MAX_KEY_LENGTH : Nat := 256

/-- `String.replace(/c/g, r)` for a single-character pattern. -/
def replace1 (a : Char) (r : List Char) : List Char → List Char
  | [] => []
  | c :: rest => if c = a then r ++ replace1 a r rest else c :: replace1 a r rest

/-- `String.replace(/cd/g, r)` for a two-character pattern: left-to-right
scan, matches never overlap, replacements are not rescanned. -/
def replace2 (a b : Char) (r : List Char) : List Char → List Char
  | [] => []
  | [c] => [c]
  | c :: d :: rest =>
    if c = a ∧ d = b then r ++ replace2 a b r rest
    else c :: replace2 a b r (d :: rest)

/-- The escaping chain of `serializeEnvFile` (lines 276-281): backslash
first, then newline, carriage return, tab, double quote. -/
def escapeValue (v : List Char) : List Char :=
  replace1 '"' [bslash, '"']
    (replace1 '\t' [bslash, 't']
      (replace1 '\r' [bslash, 'r']
        (replace1 '\n' [bslash, 'n']
          (replace1 bslash [bslash, bslash] v))))

/-- The unescaping chain of `parseEnvFile` (lines 215-221): `\n`, `\r`,
`\t`, `\"`, `\'`, and only then `\\`. -/
def unescapeValue (v : List Char) : List Char :=
  replace2 bslash bslash [bslash]
    (replace2 bslash squote [squote]
      (replace2 bslash '"' ['"']
        (replace2 bslash 't' ['\t']
          (replace2 bslash 'r' ['\r']
            (replace2 bslash 'n' ['\n'] v)))))

/-- The character class of `/[\s#$"'\\`+"`"+`!]/` (line 271). -/
def specialChar (c : Char) : Bool :=
  jsSpace c || c = '#' || c = '$' || c = '"' || c = squote || c = bslash ||
  c = btick || c = '!'

/-- The class of `/[\n\r\t]/` (line 272). -/
def ctlChar (c : Char) : Bool := c = '\n' || c = '\r' || c = '\t'

/-- `needsQuoting` (lines 270-272). -/
def needsQuoting (v : List Char) : Bool :=
  v.isEmpty || v.any specialChar || v.any ctlChar

/-- The rendered value part of a serialized line (lines 274-285). -/
def renderValue (v : List Char) : List Char :=
  if needsQuoting v then '"' :: (escapeValue v ++ ['"']) else v

/-- One serialized line `KEY=value` or `KEY="escaped"`. -/
def lineOf (k v : List Char) : List Char := k ++ '=' :: renderValue v

/-- The per-entry body of `serializeEnvFile`'s loop (lines 246-285):
`none` when the entry is skipped.  Values are strings by assumption, so
the null/undefined skip cannot fire. -/
def serializeEntry (k v : List Char) : Option (List Char) :=
  if (k.map asciiLower) ∈ DANGEROUS_KEYS then none
  else if keyRegexOk k = false then none
  else some (lineOf k v)

/-- `lines.join('\n')`. -/
def joinNl : List (List Char) → List Char
  | [] => []
  | [l] => l
  | l :: ls => l ++ '\n' :: joinNl ls

/-- `serializeEnvFile` (lines 237-289): the joined lines plus a trailing
newline. -/
def serializeEnvFile (env : List (List Char × List Char)) : List Char :=
  joinNl (env.filterMap fun kv => serializeEntry kv.1 kv.2) ++ ['\n']

/-- `content.split('\n')`. -/
def splitOnNl : List Char → List (List Char)
  | [] => [[]]
  | c :: rest =>
    if c = '\n' then [] :: splitOnNl rest
    else
      match splitOnNl rest with
      | [] => [[c]]
      | l :: ls => (c :: l) :: ls

/-- `withoutExport.indexOf('=')`, `none` for `-1`. -/
def firstEqIdx : List Char → Option Nat
  | [] => none
  | c :: rest => if c = '=' then some 0 else (firstEqIdx rest).map (· + 1)

/-- `value.startsWith(q) && value.endsWith(q)` (lines 211-212). -/
def quotedBy (q : Char) (v : List Char) : Bool :=
  v.head? == some q && v.getLast? == some q

/-- The loop body of `parseEnvFile` for one line (lines 166-224):
`none` when the line is skipped. -/
def parseLine (line : List Char) : Option (List Char × List Char) :=
  let t := jsTrim line
  if t.isEmpty then none
  else if t.head? == some '#' then none
  else if MAX_LINE_LENGTH < t.length then none
  else
    let w := if "export ".data.isPrefixOf t then t.drop 7 else t
    match firstEqIdx w with
    | none => none
    | some i =>
      let key := jsTrim (w.take i)
      let value0 := w.drop (i + 1)
      if key.isEmpty then none
      else if MAX_KEY_LENGTH < key.length then none
      else if keyRegexOk key = false then none
      else if (key.map asciiLower) ∈ DANGEROUS_KEYS then none
      else
        let v1 := jsTrim value0
        let value := if quotedBy '"' v1 || quotedBy squote v1
          then unescapeValue (v1.drop 1).dropLast
          else v1
        some (key, value)

/-- `env[key] = value` on a null-prototype object: overwrite in place or
append. -/
def envInsert : List (List Char × List Char) → List Char → List Char →
    List (List Char × List Char)
  | [], k, v => [(k, v)]
  | (k0, v0) :: rest, k, v =>
    if k0 = k then (k0, v) :: rest else (k0, v0) :: envInsert rest k v

/-- `parseEnvFile` (lines 153-228): guard against empty input, strip a
leading BOM, split into lines and fold the per-line parser. -/
def parseEnvFile (content : List Char) : List (List Char × List Char) :=
  if content.isEmpty then []
  else
    let clean := if content.head? == some bomChar then content.drop 1 else content
    (splitOnNl clean).foldl
      (fun env line =>
        match parseLine line with
        | none => env
        | some kv => envInsert env kv.1 kv.2) []

end EnvFile

/-- C10 counterexample: the two-character value backslash-`n` does not
round-trip.  The serializer escapes it to `\\n` inside quotes, but the
parser's unescaping replaces `\n` before `\\`, turning the tail of the
doubled backslash and the literal `n` into a newline: the value comes
back as backslash-newline. -/
theorem c10_roundtrip_counterexample :
    EnvFile.parseEnvFile (EnvFile.serializeEnvFile
        [("A".data, [EnvFile.bslash, 'n'])])
      = [("A".data, [EnvFile.bslash, '\n'])] ∧
    ([EnvFile.bslash, '\n'] : List Char) ≠ [EnvFile.bslash, 'n'] := by
  refine ⟨by decide, by decide⟩

namespace EnvFile

theorem replace1_cons (a : Char) (r : List Char) (c : Char) (l : List Char) :
    replace1 a r (c :: l)
      = (if c = a then r else [c]) ++ replace1 a r l := by
  by_cases h : c = a
  · simp [replace1, h]
  · simp [replace1, h]

theorem replace1_append (a : Char) (r : List Char) :
    ∀ l1 l2 : List Char,
      replace1 a r (l1 ++ l2) = replace1 a r l1 ++ replace1 a r l2 := by
  intro l1
  induction l1 with
  | nil => intro l2; simp [replace1]
  | cons c cs ih =>
    intro l2
    rw [List.cons_append, replace1_cons, replace1_cons, ih, List.append_assoc]

theorem replace1_of_notMem {a : Char} {l : List Char} (r : List Char)
    (h : a ∉ l) : replace1 a r l = l := by
  induction l with
  | nil => rfl
  | cons c cs ih =>
    have hca : c ≠ a := fun hEq => h (hEq ▸ List.mem_cons_self c cs)
    rw [replace1_cons, if_neg hca, ih (fun hc => h (List.mem_cons_of_mem _ hc))]
    rfl

theorem notMem_replace1 {x a : Char} {r l : List Char} (hl : x ∉ l)
    (hr : x ∉ r) : x ∉ replace1 a r l := by
  induction l with
  | nil => simp [replace1]
  | cons c cs ih =>
    rw [replace1_cons]
    intro hc
    rcases List.mem_append.mp hc with hc | hc
    · by_cases h : c = a
      · rw [if_pos h] at hc
        exact hr hc
      · rw [if_neg h] at hc
        rcases List.mem_singleton.mp hc with rfl
        exact hl (List.mem_cons_self _ _)
    · exact ih (fun h2 => hl (List.mem_cons_of_mem _ h2)) hc

theorem notMem_replace1_self {a : Char} {r l : List Char} (hr : a ∉ r) :
    a ∉ replace1 a r l := by
  induction l with
  | nil => simp [replace1]
  | cons c cs ih =>
    rw [replace1_cons]
    intro hc
    rcases List.mem_append.mp hc with hc | hc
    · by_cases h : c = a
      · rw [if_pos h] at hc
        exact hr hc
      · rw [if_neg h] at hc
        rcases List.mem_singleton.mp hc with rfl
        exact h rfl
    · exact ih hc

theorem replace2_cons_ne_a {a : Char} (b : Char) (r : List Char) {x : Char}
    (l : List Char) (h : x ≠ a) :
    replace2 a b r (x :: l) = x :: replace2 a b r l := by
  cases l with
  | nil => rfl
  | cons d rest =>
    rw [replace2, if_neg (fun hc => h hc.1)]

theorem replace2_cons2_ne_b (a : Char) {b : Char} (r : List Char) (x : Char)
    {y : Char} (l : List Char) (h : y ≠ b) :
    replace2 a b r (x :: y :: l) = x :: replace2 a b r (y :: l) := by
  rw [replace2, if_neg (fun hc => h hc.2)]

theorem replace2_match (a b : Char) (r : List Char) (l : List Char) :
    replace2 a b r (a :: b :: l) = r ++ replace2 a b r l := by
  rw [replace2, if_pos ⟨rfl, rfl⟩]

theorem replace2_of_notMem_a {a : Char} (b : Char) (r : List Char) :
    ∀ l : List Char, a ∉ l → replace2 a b r l = l := by
  intro l
  induction l with
  | nil => intro _; rfl
  | cons c cs ih =>
    intro h
    have hca : c ≠ a := fun hEq => h (hEq ▸ List.mem_cons_self c cs)
    rw [replace2_cons_ne_a b r cs hca, ih (fun hc => h (List.mem_cons_of_mem _ hc))]

/-- Concatenation of a per-character expansion. -/
def cmap (f : Char → List Char) : List Char → List Char
  | [] => []
  | c :: v => f c ++ cmap f v

end EnvFile

namespace EnvFile

/-- Per-character action of the full escaping chain on a backslash-free
value. -/
def esc1 (c : Char) : List Char :=
  if c = '\n' then [bslash, 'n']
  else if c = '\r' then [bslash, 'r']
  else if c = '\t' then [bslash, 't']
  else if c = '"' then [bslash, '"']
  else [c]

/-- Residual escape classes after undoing the newline escapes. -/
def esc234 (c : Char) : List Char :=
  if c = '\r' then [bslash, 'r']
  else if c = '\t' then [bslash, 't']
  else if c = '"' then [bslash, '"']
  else [c]

/-- Residual escape classes after undoing newline and return escapes. -/
def esc34 (c : Char) : List Char :=
  if c = '\t' then [bslash, 't']
  else if c = '"' then [bslash, '"']
  else [c]

/-- Residual escape class after undoing all but the quote escape. -/
def esc4 (c : Char) : List Char :=
  if c = '"' then [bslash, '"']
  else [c]

/-- The last four stages of `escapeValue` (all but the backslash
doubling, which is the identity on backslash-free input). -/
def escapeSteps (v : List Char) : List Char :=
  replace1 '"' [bslash, '"']
    (replace1 '\t' [bslash, 't']
      (replace1 '\r' [bslash, 'r']
        (replace1 '\n' [bslash, 'n'] v)))

theorem escapeValue_eq_steps {v : List Char} (hv : bslash ∉ v) :
    escapeValue v = escapeSteps v := by
  unfold escapeValue escapeSteps
  rw [replace1_of_notMem _ hv]

theorem replace1_pre (a : Char) (r p X : List Char)
    (hp : replace1 a r p = p) :
    replace1 a r (p ++ X) = p ++ replace1 a r X := by
  rw [replace1_append, hp]

theorem escapeSteps_cons (c : Char) (v : List Char) :
    escapeSteps (c :: v) = esc1 c ++ escapeSteps v := by
  by_cases h1 : c = '\n'
  · subst h1
    unfold escapeSteps
    rw [replace1_cons, if_pos rfl,
      replace1_pre _ _ [bslash, 'n'] _ (by decide),
      replace1_pre _ _ [bslash, 'n'] _ (by decide),
      replace1_pre _ _ [bslash, 'n'] _ (by decide)]
    rfl
  · by_cases h2 : c = '\r'
    · subst h2
      unfold escapeSteps
      rw [replace1_cons, if_neg h1]
      rw [show ([('\r' : Char)] ++ replace1 '\n' [bslash, 'n'] v)
        = '\r' :: replace1 '\n' [bslash, 'n'] v from rfl]
      rw [replace1_cons, if_pos rfl,
        replace1_pre _ _ [bslash, 'r'] _ (by decide),
        replace1_pre _ _ [bslash, 'r'] _ (by decide)]
      rfl
    · by_cases h3 : c = '\t'
      · subst h3
        unfold escapeSteps
        rw [replace1_cons, if_neg h1]
        rw [show ([('\t' : Char)] ++ replace1 '\n' [bslash, 'n'] v)
          = '\t' :: replace1 '\n' [bslash, 'n'] v from rfl]
        rw [replace1_cons, if_neg h2]
        rw [show ([('\t' : Char)] ++ replace1 '\r' [bslash, 'r']
            (replace1 '\n' [bslash, 'n'] v))
          = '\t' :: replace1 '\r' [bslash, 'r']
            (replace1 '\n' [bslash, 'n'] v) from rfl]
        rw [replace1_cons, if_pos rfl,
          replace1_pre _ _ [bslash, 't'] _ (by decide)]
        rfl
      · by_cases h4 : c = '"'
        · subst h4
          unfold escapeSteps
          rw [replace1_cons, if_neg h1]
          rw [show ([('"' : Char)] ++ replace1 '\n' [bslash, 'n'] v)
            = '"' :: replace1 '\n' [bslash, 'n'] v from rfl]
          rw [replace1_cons, if_neg h2]
          rw [show ([('"' : Char)] ++ replace1 '\r' [bslash, 'r']
              (replace1 '\n' [bslash, 'n'] v))
            = '"' :: replace1 '\r' [bslash, 'r']
              (replace1 '\n' [bslash, 'n'] v) from rfl]
          rw [replace1_cons, if_neg h3]
          rw [show ([('"' : Char)] ++ replace1 '\t' [bslash, 't']
              (replace1 '\r' [bslash, 'r'] (replace1 '\n' [bslash, 'n'] v)))
            = '"' :: replace1 '\t' [bslash, 't']
              (replace1 '\r' [bslash, 'r'] (replace1 '\n' [bslash, 'n'] v))
            from rfl]
          rw [replace1_cons, if_pos rfl]
          rw [show esc1 '"' = [bslash, '"'] from rfl]
        · unfold escapeSteps
          rw [replace1_cons, if_neg h1]
          rw [show ([c] ++ replace1 '\n' [bslash, 'n'] v)
            = c :: replace1 '\n' [bslash, 'n'] v from rfl]
          rw [replace1_cons, if_neg h2]
          rw [show ([c] ++ replace1 '\r' [bslash, 'r']
              (replace1 '\n' [bslash, 'n'] v))
            = c :: replace1 '\r' [bslash, 'r']
              (replace1 '\n' [bslash, 'n'] v) from rfl]
          rw [replace1_cons, if_neg h3]
          rw [show ([c] ++ replace1 '\t' [bslash, 't']
              (replace1 '\r' [bslash, 'r'] (replace1 '\n' [bslash, 'n'] v)))
            = c :: replace1 '\t' [bslash, 't']
              (replace1 '\r' [bslash, 'r'] (replace1 '\n' [bslash, 'n'] v))
            from rfl]
          rw [replace1_cons, if_neg h4]
          rw [esc1, if_neg h1, if_neg h2, if_neg h3, if_neg h4]

theorem escapeSteps_eq_cmap (v : List Char) : escapeSteps v = cmap esc1 v := by
  induction v with
  | nil => rfl
  | cons c cs ih => rw [escapeSteps_cons, ih]; rfl

end EnvFile

namespace EnvFile

theorem unescape_stage1 : ∀ v : List Char, bslash ∉ v →
    replace2 bslash 'n' ['\n'] (cmap esc1 v) = cmap esc234 v := by
  intro v
  induction v with
  | nil => intro _; rfl
  | cons c cs ih =>
    intro hv
    have hvc : bslash ∉ cs := fun h => hv (List.mem_cons_of_mem _ h)
    have hcb : c ≠ bslash := fun hEq => hv (hEq ▸ List.mem_cons_self c cs)
    by_cases h1 : c = '\n'
    · subst h1
      show replace2 bslash 'n' ['\n'] (bslash :: 'n' :: cmap esc1 cs)
        = cmap esc234 ('\n' :: cs)
      rw [replace2_match, ih hvc]
      rfl
    · by_cases h2 : c = '\r'
      · subst h2
        show replace2 bslash 'n' ['\n'] (bslash :: 'r' :: cmap esc1 cs)
          = cmap esc234 ('\r' :: cs)
        rw [replace2_cons2_ne_b _ _ _ _ (by decide),
          replace2_cons_ne_a _ _ _ (by decide), ih hvc]
        rfl
      · by_cases h3 : c = '\t'
        · subst h3
          show replace2 bslash 'n' ['\n'] (bslash :: 't' :: cmap esc1 cs)
            = cmap esc234 ('\t' :: cs)
          rw [replace2_cons2_ne_b _ _ _ _ (by decide),
            replace2_cons_ne_a _ _ _ (by decide), ih hvc]
          rfl
        · by_cases h4 : c = '"'
          · subst h4
            show replace2 bslash 'n' ['\n'] (bslash :: '"' :: cmap esc1 cs)
              = cmap esc234 ('"' :: cs)
            rw [replace2_cons2_ne_b _ _ _ _ (by decide),
              replace2_cons_ne_a _ _ _ (by decide), ih hvc]
            rfl
          · have he : cmap esc1 (c :: cs) = c :: cmap esc1 cs := by
              show esc1 c ++ cmap esc1 cs = _
              rw [esc1, if_neg h1, if_neg h2, if_neg h3, if_neg h4]
              rfl
            have he2 : cmap esc234 (c :: cs) = c :: cmap esc234 cs := by
              show esc234 c ++ cmap esc234 cs = _
              rw [esc234, if_neg h2, if_neg h3, if_neg h4]
              rfl
            rw [he, he2, replace2_cons_ne_a _ _ _ hcb, ih hvc]

theorem unescape_stage2 : ∀ v : List Char, bslash ∉ v →
    replace2 bslash 'r' ['\r'] (cmap esc234 v) = cmap esc34 v := by
  intro v
  induction v with
  | nil => intro _; rfl
  | cons c cs ih =>
    intro hv
    have hvc : bslash ∉ cs := fun h => hv (List.mem_cons_of_mem _ h)
    have hcb : c ≠ bslash := fun hEq => hv (hEq ▸ List.mem_cons_self c cs)
    by_cases h2 : c = '\r'
    · subst h2
      show replace2 bslash 'r' ['\r'] (bslash :: 'r' :: cmap esc234 cs)
        = cmap esc34 ('\r' :: cs)
      rw [replace2_match, ih hvc]
      rfl
    · by_cases h3 : c = '\t'
      · subst h3
        show replace2 bslash 'r' ['\r'] (bslash :: 't' :: cmap esc234 cs)
          = cmap esc34 ('\t' :: cs)
        rw [replace2_cons2_ne_b _ _ _ _ (by decide),
          replace2_cons_ne_a _ _ _ (by decide), ih hvc]
        rfl
      · by_cases h4 : c = '"'
        · subst h4
          show replace2 bslash 'r' ['\r'] (bslash :: '"' :: cmap esc234 cs)
            = cmap esc34 ('"' :: cs)
          rw [replace2_cons2_ne_b _ _ _ _ (by decide),
            replace2_cons_ne_a _ _ _ (by decide), ih hvc]
          rfl
        · have he : cmap esc234 (c :: cs) = c :: cmap esc234 cs := by
            show esc234 c ++ cmap esc234 cs = _
            rw [esc234, if_neg h2, if_neg h3, if_neg h4]
            rfl
          have he2 : cmap esc34 (c :: cs) = c :: cmap esc34 cs := by
            show esc34 c ++ cmap esc34 cs = _
            rw [esc34, if_neg h3, if_neg h4]
            rfl
          rw [he, he2, replace2_cons_ne_a _ _ _ hcb, ih hvc]

theorem unescape_stage3 : ∀ v : List Char, bslash ∉ v →
    replace2 bslash 't' ['\t'] (cmap esc34 v) = cmap esc4 v := by
  intro v
  induction v with
  | nil => intro _; rfl
  | cons c cs ih =>
    intro hv
    have hvc : bslash ∉ cs := fun h => hv (List.mem_cons_of_mem _ h)
    have hcb : c ≠ bslash := fun hEq => hv (hEq ▸ List.mem_cons_self c cs)
    by_cases h3 : c = '\t'
    · subst h3
      show replace2 bslash 't' ['\t'] (bslash :: 't' :: cmap esc34 cs)
        = cmap esc4 ('\t' :: cs)
      rw [replace2_match, ih hvc]
      rfl
    · by_cases h4 : c = '"'
      · subst h4
        show replace2 bslash 't' ['\t'] (bslash :: '"' :: cmap esc34 cs)
          = cmap esc4 ('"' :: cs)
        rw [replace2_cons2_ne_b _ _ _ _ (by decide),
          replace2_cons_ne_a _ _ _ (by decide), ih hvc]
        rfl
      · have he : cmap esc34 (c :: cs) = c :: cmap esc34 cs := by
          show esc34 c ++ cmap esc34 cs = _
          rw [esc34, if_neg h3, if_neg h4]
          rfl
        have he2 : cmap esc4 (c :: cs) = c :: cmap esc4 cs := by
          show esc4 c ++ cmap esc4 cs = _
          rw [esc4, if_neg h4]
          rfl
        rw [he, he2, replace2_cons_ne_a _ _ _ hcb, ih hvc]

theorem unescape_stage4 : ∀ v : List Char, bslash ∉ v →
    replace2 bslash '"' ['"'] (cmap esc4 v) = v := by
  intro v
  induction v with
  | nil => intro _; rfl
  | cons c cs ih =>
    intro hv
    have hvc : bslash ∉ cs := fun h => hv (List.mem_cons_of_mem _ h)
    have hcb : c ≠ bslash := fun hEq => hv (hEq ▸ List.mem_cons_self c cs)
    by_cases h4 : c = '"'
    · subst h4
      show replace2 bslash '"' ['"'] (bslash :: '"' :: cmap esc4 cs) = _
      rw [replace2_match, ih hvc]
      rfl
    · have he : cmap esc4 (c :: cs) = c :: cmap esc4 cs := by
        show esc4 c ++ cmap esc4 cs = _
        rw [esc4, if_neg h4]
        rfl
      rw [he, replace2_cons_ne_a _ _ _ hcb, ih hvc]

/-- On backslash-free values the parser's unescaping chain inverts the
serializer's escaping chain. -/
theorem unescape_escape {v : List Char} (hv : bslash ∉ v) :
    unescapeValue (escapeValue v) = v := by
  rw [escapeValue_eq_steps hv, escapeSteps_eq_cmap]
  unfold unescapeValue
  rw [unescape_stage1 v hv, unescape_stage2 v hv, unescape_stage3 v hv,
    unescape_stage4 v hv, replace2_of_notMem_a _ _ _ hv,
    replace2_of_notMem_a _ _ _ hv]

end EnvFile

namespace EnvFile

/-- Key characters lie in the ASCII identifier ranges. -/
theorem keyTailChar_range {c : Char} (h : keyTailChar c = true) :
    (65 ≤ c.toNat ∧ c.toNat ≤ 90) ∨ (97 ≤ c.toNat ∧ c.toNat ≤ 122) ∨
    c.toNat = 95 ∨ (48 ≤ c.toNat ∧ c.toNat ≤ 57) := by
  simp [keyTailChar, keyHeadChar] at h
  tauto

theorem keyTailChar_not_space {c : Char} (h : keyTailChar c = true) :
    jsSpace c = false := by
  have hr := keyTailChar_range h
  simp [jsSpace]
  omega

theorem keyTailChar_ne {c d : Char} (h : keyTailChar c = true)
    (hd : keyTailChar d = false) : c ≠ d := by
  intro hEq
  subst hEq
  rw [h] at hd
  cases hd

theorem keyRegex_all {k : List Char} (h : keyRegexOk k = true) :
    k ≠ [] ∧ ∀ c ∈ k, keyTailChar c = true := by
  cases k with
  | nil => cases h
  | cons c0 rest =>
    simp only [keyRegexOk, Bool.and_eq_true, List.all_eq_true] at h
    refine ⟨by simp, ?_⟩
    intro c hc
    rcases List.mem_cons.mp hc with rfl | hc
    · simp [keyTailChar, h.1]
    · exact h.2 c hc

theorem getLast?_mem {l : List Char} {a : Char} (h : l.getLast? = some a) :
    a ∈ l := by
  have ha : a ∈ l.getLast? := by rw [h]; rfl
  obtain ⟨hne, rfl⟩ := List.mem_getLast?_eq_getLast ha
  exact List.getLast_mem hne

/-- `trim` is the identity when neither end is whitespace. -/
theorem jsTrim_eq_self {l : List Char}
    (h1 : ∀ c, l.head? = some c → jsSpace c = false)
    (h2 : ∀ c, l.getLast? = some c → jsSpace c = false) : jsTrim l = l := by
  cases l with
  | nil => rfl
  | cons a as =>
    have hd : List.dropWhile jsSpace (a :: as) = a :: as := by
      rw [List.dropWhile_cons, h1 a rfl]
      simp
    unfold jsTrim
    rw [hd]
    cases hrev : (a :: as).reverse with
    | nil =>
      have := congrArg List.length hrev
      simp at this
    | cons b bs =>
      have hb : (a :: as).getLast? = some b := by
        rw [← List.head?_reverse, hrev]
        rfl
      rw [List.dropWhile_cons, h2 b hb]
      simp only [if_false, Bool.false_eq_true]
      rw [← hrev, List.reverse_reverse]

theorem nl_not_mem_esc1 (c : Char) : '\n' ∉ esc1 c := by
  unfold esc1
  split_ifs with h1 h2 h3 h4
  · decide
  · decide
  · decide
  · decide
  · simp only [List.mem_singleton]
    intro h
    exact h1 h.symm

theorem mem_cmap {x : Char} {f : Char → List Char} :
    ∀ {v : List Char}, x ∈ cmap f v → ∃ c ∈ v, x ∈ f c := by
  intro v
  induction v with
  | nil => intro h; cases h
  | cons c cs ih =>
    intro h
    rcases List.mem_append.mp h with h | h
    · exact ⟨c, List.mem_cons_self _ _, h⟩
    · obtain ⟨d, hd, hx⟩ := ih h
      exact ⟨d, List.mem_cons_of_mem _ hd, hx⟩

theorem nl_not_mem_escape {v : List Char} (hv : bslash ∉ v) :
    '\n' ∉ escapeValue v := by
  rw [escapeValue_eq_steps hv, escapeSteps_eq_cmap]
  intro h
  obtain ⟨c, _, hx⟩ := mem_cmap h
  exact nl_not_mem_esc1 c hx

/-- Facts packaged from a false `needsQuoting`. -/
theorem no_quoting_facts {v : List Char} (h : needsQuoting v = false) :
    v ≠ [] ∧ ∀ c ∈ v, jsSpace c = false ∧ c ≠ '"' ∧ c ≠ squote ∧
      c ≠ bslash ∧ c ≠ '\n' := by
  simp only [needsQuoting, Bool.or_eq_false_iff] at h
  obtain ⟨⟨he, hsp⟩, hctl⟩ := h
  constructor
  · intro hEq
    subst hEq
    simp at he
  · intro c hc
    have hs : specialChar c = false := by
      rw [List.any_eq_false] at hsp
      simpa using hsp c hc
    have hct : ctlChar c = false := by
      rw [List.any_eq_false] at hctl
      simpa using hctl c hc
    simp only [specialChar, Bool.or_eq_false_iff,
      decide_eq_false_iff_not] at hs
    simp only [ctlChar, Bool.or_eq_false_iff, decide_eq_false_iff_not] at hct
    exact ⟨hs.1.1.1.1.1.1.1, hs.1.1.1.1.2, hs.1.1.1.2, hs.1.1.2, hct.1.1⟩

end EnvFile

namespace EnvFile

theorem prefix_split : ∀ (p k : List Char) (x : Char) (rest : List Char),
    p.isPrefixOf (k ++ x :: rest) = true →
    p.isPrefixOf k = true ∨ ∃ p2, p = k ++ x :: p2 := by
  intro p k
  induction k generalizing p with
  | nil =>
    intro x rest h
    cases p with
    | nil => exact Or.inl rfl
    | cons a p2 =>
      simp only [List.nil_append] at h
      have h2 : (a == x && p2.isPrefixOf rest) = true := h
      rw [Bool.and_eq_true] at h2
      obtain ⟨hax, _⟩ := h2
      exact Or.inr ⟨p2, by rw [beq_iff_eq.mp hax]; rfl⟩
  | cons c k2 ih =>
    intro x rest h
    cases p with
    | nil => exact Or.inl rfl
    | cons a p2 =>
      have h2 : (a == c && p2.isPrefixOf (k2 ++ x :: rest)) = true := h
      rw [Bool.and_eq_true] at h2
      obtain ⟨hac, hrest⟩ := h2
      have hace : a = c := beq_iff_eq.mp hac
      rcases ih p2 x rest hrest with hp | ⟨p3, hp⟩
      · left
        show (a == c && p2.isPrefixOf k2) = true
        rw [hac, hp]
        rfl
      · right
        exact ⟨p3, by rw [hace, hp]; rfl⟩

/-- A serialized line never carries the `export ` prefix: key characters
exclude the space, and `=` does not occur in the word `export `. -/
theorem export_not_prefix (k rv : List Char)
    (hall : ∀ c ∈ k, keyTailChar c = true) :
    "export ".data.isPrefixOf (k ++ '=' :: rv) = false := by
  cases hb : "export ".data.isPrefixOf (k ++ '=' :: rv) with
  | false => rfl
  | true =>
    exfalso
    rcases prefix_split _ _ _ _ hb with hp | ⟨p2, hp⟩
    · have hsub := (List.isPrefixOf_iff_prefix.mp hp).subset
      have hsp : (' ' : Char) ∈ k := hsub (by decide)
      have := hall ' ' hsp
      exact absurd this (by decide)
    · have : ('=' : Char) ∈ "export ".data := by
        rw [hp]
        exact List.mem_append.mpr (Or.inr (List.mem_cons_self _ _))
      exact absurd this (by decide)

theorem firstEqIdx_append (k rv : List Char)
    (hk : ∀ c ∈ k, c ≠ '=') :
    firstEqIdx (k ++ '=' :: rv) = some k.length := by
  induction k with
  | nil => simp [firstEqIdx]
  | cons c k2 ih =>
    have hc : c ≠ '=' := hk c (List.mem_cons_self _ _)
    rw [List.cons_append, firstEqIdx, if_neg hc,
      ih (fun d hd => hk d (List.mem_cons_of_mem _ hd))]
    rfl

theorem drop_len_succ_append (k : List Char) (x : Char) (rv : List Char) :
    (k ++ x :: rv).drop (k.length + 1) = rv := by
  rw [← List.drop_drop, List.drop_left]
  rfl

end EnvFile

namespace EnvFile

theorem serializeEntry_eq {k : List Char} (v : List Char)
    (hreg : keyRegexOk k = true)
    (hdang : (k.map asciiLower) ∉ DANGEROUS_KEYS) :
    serializeEntry k v = some (lineOf k v) := by
  unfold serializeEntry
  rw [if_neg hdang, hreg]
  simp

/-- Parsing a well-formed `KEY=rendered` line: the checks pass and the
value branch is decided by the quote test on the rendered value. -/
theorem parseLine_keyval {k rv val : List Char}
    (hreg : keyRegexOk k = true) (hklen : k.length ≤ MAX_KEY_LENGTH)
    (hdang : (k.map asciiLower) ∉ DANGEROUS_KEYS)
    (hlen : (k ++ '=' :: rv).length ≤ MAX_LINE_LENGTH)
    (hrvhead : ∀ c, rv.head? = some c → jsSpace c = false)
    (hrvlast : ∀ c, rv.getLast? = some c → jsSpace c = false)
    (hval : (if quotedBy '"' rv || quotedBy squote rv
      then unescapeValue (rv.drop 1).dropLast else rv) = val) :
    parseLine (k ++ '=' :: rv) = some (k, val) := by
  obtain ⟨hk0, hall⟩ := keyRegex_all hreg
  cases k with
  | nil => exact absurd rfl hk0
  | cons kh kt =>
  have hkh : keyTailChar kh = true := hall kh (List.mem_cons_self _ _)
  have hkhs : jsSpace kh = false := keyTailChar_not_space hkh
  have hhead : ((kh :: kt) ++ '=' :: rv).head? = some kh := rfl
  have hlast2 : ((kh :: kt) ++ '=' :: rv).getLast? = ('=' :: rv).getLast? :=
    List.getLast?_append_cons _ _ _
  have htrim : jsTrim ((kh :: kt) ++ '=' :: rv) = (kh :: kt) ++ '=' :: rv := by
    apply jsTrim_eq_self
    · intro c hc
      rw [hhead] at hc
      cases hc
      exact hkhs
    · intro c hc
      rw [hlast2] at hc
      cases rv with
      | nil =>
        cases hc
        decide
      | cons r rs =>
        rw [List.getLast?_cons_cons] at hc
        exact hrvlast c hc
  have hkeytrim : jsTrim (kh :: kt) = kh :: kt := by
    apply jsTrim_eq_self
    · intro c hc
      cases hc
      exact hkhs
    · intro c hc
      exact keyTailChar_not_space (hall c (getLast?_mem hc))
  have hne : ∀ c ∈ kh :: kt, c ≠ '=' :=
    fun c hc => keyTailChar_ne (hall c hc) (by decide)
  have hidx : firstEqIdx ((kh :: kt) ++ '=' :: rv)
      = some (kh :: kt).length := firstEqIdx_append _ _ hne
  have hexp : "export ".data.isPrefixOf ((kh :: kt) ++ '=' :: rv) = false :=
    export_not_prefix _ _ hall
  have hkh35 : kh ≠ '#' := keyTailChar_ne hkh (by decide)
  have hbeq : (((kh :: kt) ++ '=' :: rv).head? == some '#') = false := by
    rw [hhead]
    simp [hkh35]
  have hempty : ((kh :: kt) ++ '=' :: rv).isEmpty = false := rfl
  have htake : ((kh :: kt) ++ '=' :: rv).take (kh :: kt).length = kh :: kt :=
    List.take_left _ _
  have hdrop : ((kh :: kt) ++ '=' :: rv).drop ((kh :: kt).length + 1) = rv :=
    drop_len_succ_append _ _ _
  unfold parseLine
  simp only [htrim, hempty, hbeq, hexp, Bool.false_eq_true, if_false, hidx,
    htake, hdrop, hkeytrim]
  rw [if_neg (Nat.not_lt.mpr hlen)]
  rw [if_neg (by simp : ¬ (kh :: kt).isEmpty = true)]
  rw [if_neg (Nat.not_lt.mpr hklen)]
  rw [if_neg (by simp [hreg] : ¬ keyRegexOk (kh :: kt) = false)]
  rw [if_neg hdang]
  have hvtrim : jsTrim rv = rv := by
    apply jsTrim_eq_self
    · exact hrvhead
    · exact hrvlast
  rw [hvtrim, hval]

end EnvFile

namespace EnvFile

/-- The round-trip at the level of a single serialized entry line. -/
theorem parseLine_lineOf {k v : List Char}
    (hreg : keyRegexOk k = true) (hklen : k.length ≤ MAX_KEY_LENGTH)
    (hdang : (k.map asciiLower) ∉ DANGEROUS_KEYS)
    (hv : bslash ∉ v) (hlen : (lineOf k v).length ≤ MAX_LINE_LENGTH) :
    parseLine (lineOf k v) = some (k, v) := by
  by_cases hq : needsQuoting v = true
  · have hrv : renderValue v = '"' :: (escapeValue v ++ ['"']) := by
      simp [renderValue, hq]
    have hlast : (renderValue v).getLast? = some '"' := by
      rw [hrv, show ('"' :: (escapeValue v ++ ['"']))
        = ('"' :: escapeValue v) ++ ['"'] from by simp]
      exact List.getLast?_concat _
    refine parseLine_keyval hreg hklen hdang ?_ ?_ ?_ ?_
    · simpa [lineOf] using hlen
    · intro c hc
      rw [hrv] at hc
      cases hc
      decide
    · intro c hc
      rw [hlast] at hc
      cases hc
      decide
    · have hqb : quotedBy '"' (renderValue v) = true := by
        rw [quotedBy, hlast, hrv]
        rfl
      rw [hqb]
      simp only [Bool.true_or, if_true]
      rw [hrv]
      rw [show List.drop 1 ('"' :: (escapeValue v ++ ['"']))
        = escapeValue v ++ ['"'] from rfl]
      rw [List.dropLast_concat]
      exact unescape_escape hv
  · have hq2 : needsQuoting v = false := by
      cases h : needsQuoting v
      · rfl
      · exact absurd h hq
    obtain ⟨hv0, hfacts⟩ := no_quoting_facts hq2
    have hrv : renderValue v = v := by simp [renderValue, hq2]
    refine parseLine_keyval hreg hklen hdang ?_ ?_ ?_ ?_
    · simpa [lineOf, hrv] using hlen
    · intro c hc
      rw [hrv] at hc
      exact (hfacts c (List.mem_of_mem_head? hc)).1
    · intro c hc
      rw [hrv] at hc
      exact (hfacts c (getLast?_mem hc)).1
    · rw [hrv]
      have hq1 : quotedBy '"' v = false := by
        cases v with
        | nil => exact absurd rfl hv0
        | cons c0 cs =>
          have hne : c0 ≠ '"' := (hfacts c0 (List.mem_cons_self _ _)).2.1
          rw [quotedBy]
          have : ((c0 :: cs).head? == some '"') = false := by simp [hne]
          rw [this, Bool.false_and]
      have hq2b : quotedBy squote v = false := by
        cases v with
        | nil => exact absurd rfl hv0
        | cons c0 cs =>
          have hne : c0 ≠ squote := (hfacts c0 (List.mem_cons_self _ _)).2.2.1
          rw [quotedBy]
          have : ((c0 :: cs).head? == some squote) = false := by simp [hne]
          rw [this, Bool.false_and]
      rw [hq1, hq2b]
      rfl

end EnvFile

namespace EnvFile

theorem nl_not_mem_lineOf {k v : List Char}
    (hall : ∀ c ∈ k, keyTailChar c = true) (hv : bslash ∉ v) :
    '\n' ∉ lineOf k v := by
  intro hmem
  rcases List.mem_append.mp hmem with hc | hc
  · exact absurd (hall _ hc) (by decide)
  · rcases List.mem_cons.mp hc with hc | hc
    · cases hc
    · by_cases hq : needsQuoting v = true
      · rw [show renderValue v = '"' :: (escapeValue v ++ ['"']) from by
          simp [renderValue, hq]] at hc
        rcases List.mem_cons.mp hc with hc | hc
        · cases hc
        · rcases List.mem_append.mp hc with hc | hc
          · exact nl_not_mem_escape hv hc
          · exact absurd (List.mem_singleton.mp hc) (by decide)
      · have hq2 : needsQuoting v = false := by
          cases h : needsQuoting v
          · rfl
          · exact absurd h hq
        rw [show renderValue v = v from by simp [renderValue, hq2]] at hc
        exact ((no_quoting_facts hq2).2 _ hc).2.2.2.2 rfl

theorem splitOnNl_append : ∀ (l t : List Char), '\n' ∉ l →
    splitOnNl (l ++ '\n' :: t) = l :: splitOnNl t := by
  intro l
  induction l with
  | nil =>
    intro t _
    simp [splitOnNl]
  | cons c cs ih =>
    intro t h
    have hc : c ≠ '\n' := fun hEq => h (hEq ▸ List.mem_cons_self _ _)
    rw [List.cons_append, splitOnNl, if_neg hc,
      ih t (fun hm => h (List.mem_cons_of_mem _ hm))]

theorem splitOnNl_joinNl : ∀ (L : List (List Char)), (∀ l ∈ L, '\n' ∉ l) →
    L ≠ [] → splitOnNl (joinNl L ++ ['\n']) = L ++ [[]] := by
  intro L
  induction L with
  | nil => intro _ h; exact absurd rfl h
  | cons l ls ih =>
    intro hL _
    cases ls with
    | nil =>
      show splitOnNl (l ++ '\n' :: []) = [l, []]
      rw [splitOnNl_append l [] (hL l (List.mem_cons_self _ _))]
      rfl
    | cons l2 ls2 =>
      have hjoin : joinNl (l :: l2 :: ls2) ++ ['\n']
          = l ++ '\n' :: (joinNl (l2 :: ls2) ++ ['\n']) := by
        show (l ++ '\n' :: joinNl (l2 :: ls2)) ++ ['\n'] = _
        simp
      rw [hjoin, splitOnNl_append l _ (hL l (List.mem_cons_self _ _)),
        ih (fun x hx => hL x (List.mem_cons_of_mem _ hx)) (by simp)]
      rfl

theorem envInsert_append (acc : List (List Char × List Char))
    (k v : List Char) (h : k ∉ acc.map Prod.fst) :
    envInsert acc k v = acc ++ [(k, v)] := by
  induction acc with
  | nil => rfl
  | cons e rest ih =>
    obtain ⟨k0, v0⟩ := e
    have hk0 : k0 ≠ k := by
      intro hEq
      exact h (by simp [hEq])
    rw [envInsert, if_neg hk0, ih (fun hm => h (by simp [hm]))]
    rfl

theorem filterMap_serialize (env : List (List Char × List Char))
    (hgood : ∀ kv ∈ env, keyRegexOk kv.1 = true ∧
      (kv.1.map asciiLower) ∉ DANGEROUS_KEYS) :
    (env.filterMap fun kv => serializeEntry kv.1 kv.2)
      = env.map fun kv => lineOf kv.1 kv.2 := by
  induction env with
  | nil => rfl
  | cons kv env2 ih =>
    obtain ⟨hreg, hdang⟩ := hgood kv (List.mem_cons_self _ _)
    rw [List.filterMap_cons, serializeEntry_eq _ hreg hdang,
      ih (fun x hx => hgood x (List.mem_cons_of_mem _ hx))]
    rfl

theorem foldl_parse_lines :
    ∀ (env acc : List (List Char × List Char)),
    (env.map Prod.fst).Nodup →
    (∀ kv ∈ env, keyRegexOk kv.1 = true ∧
      kv.1.length ≤ MAX_KEY_LENGTH ∧
      (kv.1.map asciiLower) ∉ DANGEROUS_KEYS ∧
      bslash ∉ kv.2 ∧ (lineOf kv.1 kv.2).length ≤ MAX_LINE_LENGTH) →
    (∀ kv ∈ env, kv.1 ∉ acc.map Prod.fst) →
    List.foldl
      (fun env line =>
        match parseLine line with
        | none => env
        | some kv => envInsert env kv.1 kv.2) acc
      (env.map fun kv => lineOf kv.1 kv.2)
      = acc ++ env := by
  intro env
  induction env with
  | nil => intro acc _ _ _; simp
  | cons kv env2 ih =>
    intro acc hnd hgood hacc
    obtain ⟨k, v⟩ := kv
    obtain ⟨hreg, hklen, hdang, hv, hlen⟩ := hgood (k, v) (List.mem_cons_self _ _)
    rw [List.map_cons, List.foldl_cons]
    have hpl := parseLine_lineOf hreg hklen hdang hv hlen
    simp only [hpl]
    rw [envInsert_append acc k v (hacc (k, v) (List.mem_cons_self _ _))]
    have hnd2 : (env2.map Prod.fst).Nodup := (List.nodup_cons.mp hnd).2
    have hkni : k ∉ env2.map Prod.fst := (List.nodup_cons.mp hnd).1
    rw [ih (acc ++ [(k, v)]) hnd2
      (fun x hx => hgood x (List.mem_cons_of_mem _ hx)) ?_]
    · simp
    · intro kv2 hkv2 hmem
      rw [List.map_append] at hmem
      rcases List.mem_append.mp hmem with hm | hm
      · exact hacc kv2 (List.mem_cons_of_mem _ hkv2) hm
      · have : kv2.1 = k := by simpa using hm
        exact hkni (this ▸ List.mem_map_of_mem Prod.fst hkv2)

end EnvFile

/-- C10 amended: serialization followed by parsing is the identity on env
objects whose keys match the identifier regex, are at most 256 characters,
and are not (case-insensitively) dangerous, whose values contain no
backslash, and whose serialized lines stay within the 10000-character
limit.  Backslash-bearing values can be corrupted by the parser's
unescaping order, and over-limit keys/lines or uppercase variants of the
dangerous names are silently dropped. -/
theorem c10_env_roundtrip (env : List (List Char × List Char))
    (hnd : (env.map Prod.fst).Nodup)
    (hgood : ∀ kv ∈ env, EnvFile.keyRegexOk kv.1 = true ∧
      kv.1.length ≤ EnvFile.MAX_KEY_LENGTH ∧
      (kv.1.map EnvFile.asciiLower) ∉ EnvFile.DANGEROUS_KEYS ∧
      EnvFile.bslash ∉ kv.2 ∧
      (EnvFile.lineOf kv.1 kv.2).length ≤ EnvFile.MAX_LINE_LENGTH) :
    EnvFile.parseEnvFile (EnvFile.serializeEnvFile env) = env := by
  cases env with
  | nil => rfl
  | cons e0 env2 =>
    obtain ⟨k0, v0⟩ := e0
    obtain ⟨hreg0, _, _, _, _⟩ := hgood (k0, v0) (List.mem_cons_self _ _)
    obtain ⟨hk0ne, hall0⟩ := EnvFile.keyRegex_all hreg0
    have hser : EnvFile.serializeEnvFile ((k0, v0) :: env2)
        = EnvFile.joinNl (((k0, v0) :: env2).map fun kv =>
            EnvFile.lineOf kv.1 kv.2) ++ ['\n'] := by
      unfold EnvFile.serializeEnvFile
      rw [EnvFile.filterMap_serialize _
        (fun kv hkv => ⟨(hgood kv hkv).1, (hgood kv hkv).2.2.1⟩)]
    cases hk : k0 with
    | nil => exact absurd hk hk0ne
    | cons kh kt =>
    subst hk
    have hkh : EnvFile.keyTailChar kh = true := hall0 kh (List.mem_cons_self _ _)
    have hcontent : ∃ X, EnvFile.joinNl (((kh :: kt, v0) :: env2).map fun kv =>
        EnvFile.lineOf kv.1 kv.2) ++ ['\n'] = kh :: X := by
      have hjoin : ∃ Y, EnvFile.joinNl (((kh :: kt, v0) :: env2).map fun kv =>
          EnvFile.lineOf kv.1 kv.2)
          = EnvFile.lineOf (kh :: kt) v0 ++ Y := by
        rw [List.map_cons]
        cases henv2 : env2.map fun kv => EnvFile.lineOf kv.1 kv.2 with
        | nil => exact ⟨[], by simp [EnvFile.joinNl]⟩
        | cons l1 ls1 => exact ⟨'\n' :: EnvFile.joinNl (l1 :: ls1), rfl⟩
      obtain ⟨Y, hY⟩ := hjoin
      refine ⟨kt ++ '=' :: EnvFile.renderValue v0 ++ (Y ++ ['\n']), ?_⟩
      rw [hY]
      simp [EnvFile.lineOf]
    obtain ⟨X, hX⟩ := hcontent
    have h1 : (EnvFile.joinNl (((kh :: kt, v0) :: env2).map fun kv =>
        EnvFile.lineOf kv.1 kv.2) ++ ['\n']).isEmpty = false := by
      rw [hX]
      rfl
    have hbom : kh ≠ EnvFile.bomChar := EnvFile.keyTailChar_ne hkh (by decide)
    have h2 : ((EnvFile.joinNl (((kh :: kt, v0) :: env2).map fun kv =>
        EnvFile.lineOf kv.1 kv.2) ++ ['\n']).head?
          == some EnvFile.bomChar) = false := by
      rw [hX]
      show (some kh == some EnvFile.bomChar) = false
      simp [hbom]
    have hnl : ∀ l ∈ ((kh :: kt, v0) :: env2).map fun kv =>
        EnvFile.lineOf kv.1 kv.2, '\n' ∉ l := by
      intro l hl
      obtain ⟨kv, hkv, rfl⟩ := List.mem_map.mp hl
      exact EnvFile.nl_not_mem_lineOf
        (EnvFile.keyRegex_all (hgood kv hkv).1).2 (hgood kv hkv).2.2.2.1
    have hsplit := EnvFile.splitOnNl_joinNl _ hnl (by simp)
    rw [hser]
    unfold EnvFile.parseEnvFile
    rw [h1]
    simp only [Bool.false_eq_true, if_false]
    rw [h2]
    simp only [Bool.false_eq_true, if_false]
    rw [hsplit, List.foldl_append]
    rw [EnvFile.foldl_parse_lines ((kh :: kt, v0) :: env2) [] hnd hgood
      (by simp)]
    rfl

/-- Witness for the amended C10 at a concrete two-entry env object (one
value forces the quoted path). -/
theorem c10_env_roundtrip_witness :
    EnvFile.parseEnvFile (EnvFile.serializeEnvFile
        [("KEY".data, "hello world".data), ("B2".data, "x".data)])
      = [("KEY".data, "hello world".data), ("B2".data, "x".data)] :=
  c10_env_roundtrip [("KEY".data, "hello world".data), ("B2".data, "x".data)]
    (by decide) (by decide)
